import Mathlib

/-!
Verification of the deck reader/writer core of the OpenGl_GUI_For_OpenRadioss
repository.  The C++ sources are shallowly embedded: each Lean definition
mirrors one function of the repository (`src/io/RadFileReader.cpp`,
`src/radfilereader.cpp`, `src/core/Model.h` with its inlined `Model.cpp`).
C `float`/`double` values are modelled as exact rationals: no settled claim
depends on rounding, only on whether a token parses and on exact values such
as the origin bounding box.  File streams are modelled as a map from file
names to the optional list of the file's lines.
-/

namespace OpenRadiossGUI

/-! ## Character and string primitives -/

/-- The whitespace set of `trim` in `RadFileReader::trim`: `" \t\r\n"`. -/
def isTrimWs (c : Char) : Bool :=
  c = ' ' || c = '\t' || c = '\r' || c = '\n'

/-- C locale `isspace`, used by `std::stoi` / `strtof` to skip leading blanks. -/
def isSpaceC (c : Char) : Bool :=
  c = ' ' || c = '\t' || c = '\n' || c = '\x0b' || c = '\x0c' || c = '\r'

/-- `RadFileReader::trim`: drop leading and trailing `" \t\r\n"` characters. -/
def trim (s : String) : String :=
  ⟨((s.toList.dropWhile isTrimWs).reverse.dropWhile isTrimWs).reverse⟩

/-- `line.find(pat) != std::string::npos`: substring containment. -/
def strContainsSub (s pat : String) : Bool :=
  (s.toList.tails).any (fun t => pat.toList.isPrefixOf t)

/-- `std::transform(..., ::toupper)`: ASCII upper-casing of a whole string. -/
def upperStr (s : String) : String :=
  ⟨s.toList.map Char.toUpper⟩

/-- The segments of a character list between single spaces (what repeated
    `std::getline(ss, token, ' ')` yields, a trailing empty segment included —
    it is dropped by the emptiness filter below either way). -/
def splitSeg : List Char → List (List Char)
  | [] => [[]]
  | c :: rest =>
    let r := splitSeg rest
    if c = ' ' then [] :: r
    else
      match r with
      | s :: ss => (c :: s) :: ss
      | [] => [[c]]

/-- `RadFileReader::tokenizeLine`: `std::getline(ss, token, ' ')` splits on
    every single space; each piece is trimmed and empty pieces are dropped. -/
def tokenizeLine (line : String) : List String :=
  ((splitSeg line.toList).map (fun cs => trim ⟨cs⟩)).filter (fun t => t ≠ "")

/-! ## Numeric token readers

`std::stoi` skips leading blanks, accepts an optional sign and one or more
decimal digits, stops at the first other character, and throws when no digit
was read.  `std::stof`/`stod` and `operator>>` accept the decimal/scientific
forms; hexfloat and inf/nan spellings never occur in this format and are not
modelled.  Overflow is not modelled (values are unbounded here). -/

/-- Digits to the natural number they denote, most significant first. -/
def digitsVal (ds : List Char) : Nat :=
  ds.foldl (fun a c => a * 10 + (c.toNat - 48)) 0

/-- The digit run after the optional sign: empty means the whole read throws,
    otherwise the run's value (with the sign applied) and the remainder. -/
def readDigitRun (sg : Int) (cs : List Char) : Option (Int × List Char) :=
  let ds := cs.takeWhile Char.isDigit
  if ds.isEmpty then none
  else some (sg * (digitsVal ds : Int), cs.dropWhile Char.isDigit)

/-- Sign handling of `std::stoi` once leading blanks are gone. -/
def readIntTrimmed : List Char → Option (Int × List Char)
  | '+' :: r => readDigitRun 1 r
  | '-' :: r => readDigitRun (-1) r
  | r => readDigitRun 1 r

/-- Read one C `int` from a character stream, returning the remainder. -/
def readInt (cs : List Char) : Option (Int × List Char) :=
  readIntTrimmed (cs.dropWhile isSpaceC)

/-- Read one C floating-point literal from a character stream (value kept as
    an exact rational), returning the remainder.  An `e` not followed by a
    digit is left unconsumed, as `strtof` backs up to the mantissa. -/
def readFloat (cs : List Char) : Option (ℚ × List Char) :=
  let cs1 := cs.dropWhile isSpaceC
  let (sg, cs2) : ℚ × List Char :=
    match cs1 with
    | '+' :: r => (1, r)
    | '-' :: r => (-1, r)
    | _ => (1, cs1)
  let ip := cs2.takeWhile Char.isDigit
  let cs3 := cs2.dropWhile Char.isDigit
  let (fp, cs4) : List Char × List Char :=
    match cs3 with
    | '.' :: r => (r.takeWhile Char.isDigit, r.dropWhile Char.isDigit)
    | _ => ([], cs3)
  if ip.isEmpty && fp.isEmpty then none
  else
    let mant : ℚ := sg * ((digitsVal ip : ℚ) + (digitsVal fp : ℚ) / (10 : ℚ) ^ fp.length)
    match cs4 with
    | 'e' :: r | 'E' :: r =>
      let (esg, r2) : Int × List Char :=
        match r with
        | '+' :: rr => (1, rr)
        | '-' :: rr => (-1, rr)
        | _ => (1, r)
      let eds := r2.takeWhile Char.isDigit
      if eds.isEmpty then some (mant, cs4)
      else some (mant * (10 : ℚ) ^ (esg * (digitsVal eds : Int)), r2.dropWhile Char.isDigit)
    | _ => some (mant, cs4)

/-- `std::stoi` on a whole token (trailing characters ignored). -/
def stoiOpt (s : String) : Option Int :=
  (readInt s.toList).map Prod.fst

/-- `std::stof` / `std::stod` on a whole token (trailing characters ignored). -/
def stofOpt (s : String) : Option ℚ :=
  (readFloat s.toList).map Prod.fst

/-! ## Entity records

The structs used by `src/io/RadFileReader.cpp`.  Its companion header is not
part of the repository snapshot; the field sets below are the ones the .cpp
reads and writes, with `glm::vec3` as a rational triple.  Kinematic fields of
`Node` (displacement, velocity, acceleration, fixed flags, from
`core/Node.h`) are elided: nothing here reads them. -/

structure Vec3 where
  x : ℚ
  y : ℚ
  z : ℚ
  deriving DecidableEq, Repr

def vzero : Vec3 := ⟨0, 0, 0⟩

/-- Componentwise `glm::min`. -/
def vmin (a b : Vec3) : Vec3 := ⟨min a.x b.x, min a.y b.y, min a.z b.z⟩

/-- Componentwise `glm::max`. -/
def vmax (a b : Vec3) : Vec3 := ⟨max a.x b.x, max a.y b.y, max a.z b.z⟩

structure Node where
  id : Int
  position : Vec3
  deriving DecidableEq, Repr

/-- `Element::Type` of the io reader (`TRIA3`, `QUAD4`, `TETRA4`, `HEXA8`,
    `PENTA6`, `PYRAM5`, `UNKNOWN`). -/
inductive EType where
  | UNKNOWN
  | TRIA3
  | QUAD4
  | TETRA4
  | HEXA8
  | PENTA6
  | PYRAM5
  deriving DecidableEq, Repr

structure Element where
  id : Int
  type : EType
  nodeIds : List Int
  materialId : Int
  propertyId : Int
  deriving DecidableEq, Repr

/-- Default-constructed `Element` (id 0, unknown type, empty node list),
    as produced when a data line carries fewer than two trailing tokens. -/
def defaultElement : Element := ⟨0, .UNKNOWN, [], 0, 0⟩

/-- `Material` of the io reader: id, law-name tag, open attribute bag
    (`std::map<std::string, double>`, modelled as an overwrite-on-insert
    association list). -/
structure Material where
  id : Int
  type : String
  properties : List (String × ℚ)
  deriving DecidableEq, Repr

structure RProperty where
  id : Int
  type : String
  values : List (String × ℚ)
  deriving DecidableEq, Repr

structure LoadCase where
  id : Int
  type : String
  magnitude : ℚ
  vector : Vec3
  nodeIds : List Int
  deriving DecidableEq, Repr

structure BoundaryCondition where
  id : Int
  type : String
  dofs : List Int
  nodeIds : List Int
  deriving DecidableEq, Repr

/-- `std::map::operator[] =`: replace the key's value or append the key. -/
def mapInsert (m : List (String × ℚ)) (k : String) (v : ℚ) : List (String × ℚ) :=
  if m.any (fun p => p.1 = k) then m.map (fun p => if p.1 = k then (k, v) else p)
  else m ++ [(k, v)]

/-! ## The structured reader (`src/io/RadFileReader.cpp`) -/

/-- `RadFileReader::ParseState`. -/
inductive ParseState where
  | header
  | title
  | nodes
  | elements
  | materials
  | properties
  | loads
  | boundaryConditions
  | unknown
  deriving DecidableEq, Repr

/-- The mutable fields of `RadFileReader` that the settled claims read.
    (`version_`, extracted from the header by a regex, is elided: nothing
    else reads it.)  The identifier-to-position tables are total functions
    to an optional position, the graph of each `std::unordered_map`. -/
structure RState where
  nodes : List Node
  elements : List Element
  materials : List Material
  properties : List RProperty
  loadCases : List LoadCase
  boundaryConditions : List BoundaryCondition
  title : String
  filename : String
  isValid : Bool
  nodeIdToIndex : Int → Option Nat
  elementIdToIndex : Int → Option Nat
  materialIdToIndex : Int → Option Nat
  propertyIdToIndex : Int → Option Nat
  lastError : String

/-- The state `RadFileReader::clear` produces (every collection, the title,
    the tables and the error wiped, validity reset). -/
def emptyRState : RState :=
  { nodes := [], elements := [], materials := [], properties := []
    loadCases := [], boundaryConditions := [], title := "", filename := ""
    isValid := false
    nodeIdToIndex := fun _ => none, elementIdToIndex := fun _ => none
    materialIdToIndex := fun _ => none, propertyIdToIndex := fun _ => none
    lastError := "" }

/-- `RadFileReader::setError`. -/
def setError (msg : String) (st : RState) : RState :=
  { st with lastError := msg }

/-- `RadFileReader::isComment`: blank after trimming, or first character
    `#`, `C` or `c`.  (`$` is not in this set.) -/
def isComment (line : String) : Bool :=
  match (trim line).toList with
  | [] => true
  | c :: _ => c = '#' || c = 'C' || c = 'c'

/-- `RadFileReader::isEmpty`: blank after trimming. -/
def isEmptyLine (line : String) : Bool :=
  trim line = ""

/-- The skip test at the top of the `parseFile` loop:
    `isEmpty(line) || isComment(line)`. -/
def lineSkipped (line : String) : Bool :=
  isEmptyLine line || isComment line

/-- `RadFileReader::determineSection`: case-insensitive substring match of
    the keyword table, first hit wins, `unknown` when nothing matches. -/
def determineSection (line : String) : ParseState :=
  let u := upperStr line
  if strContainsSub u "/TITLE" then .title
  else if strContainsSub u "/NODE" then .nodes
  else if strContainsSub u "/CNODE" then .nodes
  else if strContainsSub u "/BRICK" then .elements
  else if strContainsSub u "/HEXA" then .elements
  else if strContainsSub u "/TETRA4" then .elements
  else if strContainsSub u "/TETRA10" then .elements
  else if strContainsSub u "/SHELL" then .elements
  else if strContainsSub u "/SH3N" then .elements
  else if strContainsSub u "/QUAD" then .elements
  else if strContainsSub u "/TRIA" then .elements
  else if strContainsSub u "/MAT" then .materials
  else if strContainsSub u "/PROP" then .properties
  else if strContainsSub u "/PART" then .properties
  else if strContainsSub u "/LOAD" then .loads
  else if strContainsSub u "/CLOAD" then .loads
  else if strContainsSub u "/PLOAD" then .loads
  else if strContainsSub u "/BCS" then .boundaryConditions
  else if strContainsSub u "/SPC" then .boundaryConditions
  else if strContainsSub u "/IMPVEL" then .boundaryConditions
  else .unknown

/-- The `std::stoi` loop over a token list: every token must parse, the
    first failure failing the caller. -/
def stoiAll : List String → Option (List Int)
  | [] => some []
  | t :: rest => (stoiOpt t).bind fun v => (stoiAll rest).map fun vs => v :: vs

/-- The body of `RadFileReader::parseNode` over the line's token list
    (`id x y z`, at least four tokens, all numeric). -/
def parseNodeTokens : List String → Option Node
  | t0 :: t1 :: t2 :: t3 :: _ =>
    match stoiOpt t0, stofOpt t1, stofOpt t2, stofOpt t3 with
    | some i, some x, some y, some z => some ⟨i, ⟨x, y, z⟩⟩
    | _, _, _, _ => none
  | _ => none

/-- `RadFileReader::parseNode`. -/
def parseNodeLine (line : String) : Option Node :=
  parseNodeTokens (tokenizeLine line)

/-- The body of `RadFileReader::parseElement` over the line's token list:
    at least three tokens; with at least two trailing tokens the second and
    third are material and property ids, the topology tag is chosen by the
    trailing-token count and the trailing tokens become the node ids;
    otherwise only the id is filled in. -/
def parseElementTokens : List String → Option Element
  | t0 :: t1 :: t2 :: rest =>
    (stoiOpt t0).bind fun i =>
      if rest.length ≥ 2 then
        (stoiOpt t1).bind fun matId =>
        (stoiOpt t2).bind fun propId =>
        (stoiAll rest).bind fun nids =>
          let ty : EType :=
            match rest.length with
            | 3 => .TRIA3
            | 4 => .QUAD4
            | 5 => .PYRAM5
            | 6 => .PENTA6
            | 8 => .HEXA8
            | _ => .UNKNOWN
          some ⟨i, ty, nids, matId, propId⟩
      else some { defaultElement with id := i }
  | _ => none

/-- `RadFileReader::parseElement`. -/
def parseElementLine (line : String) : Option Element :=
  parseElementTokens (tokenizeLine line)

/-- Pairwise attribute loop of `parseMaterial`/`parseProperty`: tokens are
    consumed two at a time into the bag; an odd trailing token is dropped;
    a value that `std::stod` rejects fails the line. -/
def readAttrPairs : List String → List (String × ℚ) → Option (List (String × ℚ))
  | [], acc => some acc
  | [_], acc => some acc
  | n :: v :: rest, acc =>
    match stofOpt v with
    | some q => readAttrPairs rest (mapInsert acc n q)
    | none => none

/-- `RadFileReader::parseMaterial`: `id type (name value)*`. -/
def parseMaterialLine (line : String) : Option Material :=
  match tokenizeLine line with
  | t0 :: t1 :: rest =>
    (stoiOpt t0).bind fun i =>
    (readAttrPairs rest []).map fun bag => ⟨i, t1, bag⟩
  | _ => none

/-- `RadFileReader::parseProperty`: `id type (name value)*`. -/
def parsePropertyLine (line : String) : Option RProperty :=
  match tokenizeLine line with
  | t0 :: t1 :: rest =>
    (stoiOpt t0).bind fun i =>
    (readAttrPairs rest []).map fun bag => ⟨i, t1, bag⟩
  | _ => none

/-- `RadFileReader::parseLoadCase`: `id type magnitude vx vy [vz] [node_id...]`
    (at least five tokens; a missing `vz` stays at its default 0). -/
def parseLoadCaseLine (line : String) : Option LoadCase :=
  match tokenizeLine line with
  | t0 :: t1 :: t2 :: t3 :: t4 :: rest =>
    (stoiOpt t0).bind fun i =>
    (stofOpt t2).bind fun mag =>
    (stofOpt t3).bind fun vx =>
    (stofOpt t4).bind fun vy =>
      match rest with
      | [] => some ⟨i, t1, mag, ⟨vx, vy, 0⟩, []⟩
      | t5 :: after =>
        (stofOpt t5).bind fun vz =>
        (stoiAll after).map fun nids => ⟨i, t1, mag, ⟨vx, vy, vz⟩, nids⟩
  | _ => none

/-- `token.find_first_of("123456") != npos`: the token holds at least one
    of the characters `1`..`6`. -/
def bcTokenHasDof (t : String) : Bool :=
  t.toList.any (fun c => '1' ≤ c && c ≤ '6')

/-- The digits `1`..`6` of a DOF token, in order, as small integers. -/
def bcDofDigits (t : String) : List Int :=
  (t.toList.filter (fun c => '1' ≤ c && c ≤ '6')).map (fun c => (c.toNat : Int) - 48)

/-- The token loop of `parseBoundaryCondition`: a token holding a character
    `1`..`6` contributes its such digits to the DOF list, any other token is
    a node id read with `std::stoi` (whose failure fails the line). -/
def bcTokenLoop : List String → List Int → List Int → Option (List Int × List Int)
  | [], dofs, nids => some (dofs, nids)
  | t :: rest, dofs, nids =>
    if bcTokenHasDof t then bcTokenLoop rest (dofs ++ bcDofDigits t) nids
    else
      match stoiOpt t with
      | some v => bcTokenLoop rest dofs (nids ++ [v])
      | none => none

/-- The body of `RadFileReader::parseBoundaryCondition` over the line's
    token list: at least three tokens (`id type` and one more), then the
    token loop over everything past the first two. -/
def parseBCTokens : List String → Option BoundaryCondition
  | t0 :: t1 :: t2 :: rest =>
    (stoiOpt t0).bind fun i =>
    (bcTokenLoop (t2 :: rest) [] []).map fun p => ⟨i, t1, p.1, p.2⟩
  | _ => none

/-- `RadFileReader::parseBoundaryCondition`. -/
def parseBoundaryConditionLine (line : String) : Option BoundaryCondition :=
  parseBCTokens (tokenizeLine line)

/-- `RadFileReader::parseTitle`: the first title line is taken trimmed, later
    ones are appended with a space. -/
def parseTitle (line : String) (st : RState) : RState :=
  if st.title = "" then { st with title := trim line }
  else { st with title := st.title ++ " " ++ trim line }

/-- The per-state dispatch in the body of `parseFile`'s loop: `none` is the
    `parseSuccess = false` outcome.  `header` accepts anything; so does the
    (unreachable) `unknown` default branch. -/
def parseContent (cur : ParseState) (line : String) (st : RState) : Option RState :=
  match cur with
  | .header => some st
  | .title => some (parseTitle line st)
  | .nodes => (parseNodeLine line).map fun n => { st with nodes := st.nodes ++ [n] }
  | .elements => (parseElementLine line).map fun e => { st with elements := st.elements ++ [e] }
  | .materials => (parseMaterialLine line).map fun m => { st with materials := st.materials ++ [m] }
  | .properties => (parsePropertyLine line).map fun p => { st with properties := st.properties ++ [p] }
  | .loads => (parseLoadCaseLine line).map fun lc => { st with loadCases := st.loadCases ++ [lc] }
  | .boundaryConditions =>
    (parseBoundaryConditionLine line).map fun bc =>
      { st with boundaryConditions := st.boundaryConditions ++ [bc] }
  | .unknown => some st

/-- The line loop of `RadFileReader::parseFile`: `n` lines were already read;
    a skipped line is a comment or blank; a line whose keyword matches the
    table switches the section and is discarded; any other line is parsed
    under the current section and a failure there stops the whole read with
    the line's error recorded. -/
def parseFileLoop : ParseState → Nat → List String → RState → Bool × RState
  | _, _, [], st => (true, st)
  | cur, n, l :: rest, st =>
    if isEmptyLine l || isComment l then parseFileLoop cur (n + 1) rest st
    else
      let ns := determineSection l
      if ns ≠ ParseState.unknown then parseFileLoop ns (n + 1) rest st
      else
        match parseContent cur l st with
        | some st2 => parseFileLoop cur (n + 1) rest st2
        | none => (false, setError ("Parse error at line " ++ toString (n + 1) ++ ": " ++ l) st)

/-- `RadFileReader::parseFile` over the opened stream's lines. -/
def parseFile (lines : List String) (st : RState) : Bool × RState :=
  parseFileLoop .header 0 lines st

/-! ## Lookup tables, validation, geometry (`src/io/RadFileReader.cpp`) -/

/-- One pass of `buildLookupTables` for one collection: `map[l[i].id] = i`
    for `i` rising, so a later position overwrites an earlier one. -/
def indexMapOf (ids : List Int) : Int → Option Nat :=
  (ids.enum).foldl (fun m p => fun i => if i = p.2 then some p.1 else m i) (fun _ => none)

/-- `RadFileReader::buildLookupTables` (tables cleared, then rebuilt). -/
def buildLookupTables (st : RState) : RState :=
  { st with
    nodeIdToIndex := indexMapOf (st.nodes.map Node.id)
    elementIdToIndex := indexMapOf (st.elements.map Element.id)
    materialIdToIndex := indexMapOf (st.materials.map Material.id)
    propertyIdToIndex := indexMapOf (st.properties.map RProperty.id) }

/-- `RadFileReader::findNode`: table hit with a position inside the vector. -/
def findNode (st : RState) (i : Int) : Option Node :=
  match st.nodeIdToIndex i with
  | some p => if p < st.nodes.length then st.nodes.get? p else none
  | none => none

/-- `RadFileUtils::getElementNodeCount`: canonical node count per topology,
    0 for unknown. -/
def getElementNodeCount : EType → Int
  | .TRIA3 => 3
  | .QUAD4 => 4
  | .TETRA4 => 4
  | .PYRAM5 => 5
  | .PENTA6 => 6
  | .HEXA8 => 8
  | .UNKNOWN => 0

/-- The loop of `validateNodes` with its seen-set accumulator. -/
def validateNodesAux : List Int → List Node → Bool
  | _, [] => true
  | seen, n :: rest =>
    if n.id ∈ seen then false else validateNodesAux (n.id :: seen) rest

/-- `RadFileReader::validateNodes`: no duplicate node identifier. -/
def validateNodes (st : RState) : Bool :=
  validateNodesAux [] st.nodes

/-- The loop of `validateElements`: duplicate id check, then for a known
    topology a node-count check. -/
def validateElementsAux : List Int → List Element → Bool
  | _, [] => true
  | seen, e :: rest =>
    if e.id ∈ seen then false
    else if 0 < getElementNodeCount e.type ∧ (e.nodeIds.length : Int) ≠ getElementNodeCount e.type
      then false
    else validateElementsAux (e.id :: seen) rest

/-- `RadFileReader::validateElements`. -/
def validateElements (st : RState) : Bool :=
  validateElementsAux [] st.elements

/-- `RadFileReader::validateReferences`: every node id an element names must
    resolve through `findNode`. -/
def validateReferences (st : RState) : Bool :=
  st.elements.all fun e => e.nodeIds.all fun nid => (findNode st nid).isSome

/-- `RadFileReader::validateData`. -/
def validateData (st : RState) : Bool :=
  validateNodes st && validateElements st && validateReferences st

/-- `RadFileReader::getBoundingBox`: the origin pair for an empty node set,
    otherwise one componentwise min/max pass seeded with the first node. -/
def getBoundingBox (st : RState) : Vec3 × Vec3 :=
  match st.nodes with
  | [] => (vzero, vzero)
  | n0 :: _ =>
    (st.nodes.foldl (fun acc nd => vmin acc nd.position) n0.position,
     st.nodes.foldl (fun acc nd => vmax acc nd.position) n0.position)

/-- `RadFileReader::loadFile`, with the file system as a map from names to
    the optional line list of an openable file: clear everything, remember
    the name, fail with an error when the file does not open; otherwise
    parse, rebuild the tables, validate, and report `success && isValid_`. -/
def loadFile (fs : String → Option (List String)) (filename : String) (_st : RState) :
    Bool × RState :=
  let st1 := { emptyRState with filename := filename }
  match fs filename with
  | none => (false, setError ("Cannot open file: " ++ filename) st1)
  | some lines =>
    let r := parseFile lines st1
    if r.1 then
      let st3 := buildLookupTables r.2
      let valid := validateData st3
      let st4 := { st3 with isValid := valid }
      (valid, if valid then st4 else setError "File validation failed" st4)
    else (false, r.2)

/-! ## The simple reader (`src/radfilereader.cpp`)

The second `RadFileReader` of the repository: one loop with `inNodes` /
`inElements` flags, raw-line comment test, stream extraction for records,
and `isValid_ = !nodes_.empty()` deciding the load's result. -/

namespace SimpleRad

/-- The fields of the simple reader. -/
structure SState where
  nodes : List Node
  elements : List Element
  title : String
  isValid : Bool
  lastError : String
  deriving DecidableEq, Repr

def emptySState : SState := ⟨[], [], "", false, ""⟩

/-- `line.empty() || line[0] == '#' || line[0] == 'C'` on the raw line. -/
def rawSkipped (l : String) : Bool :=
  l = "" || l.toList.head? = some '#' || l.toList.head? = some 'C'

/-- `iss >> id >> x >> y >> z` on one node line. -/
def readNodeRecord (cs : List Char) : Option Node :=
  (readInt cs).bind fun p1 =>
  (readFloat p1.2).bind fun p2 =>
  (readFloat p2.2).bind fun p3 =>
  (readFloat p3.2).map fun p4 => ⟨p1.1, ⟨p2.1, p3.1, p4.1⟩⟩

theorem length_dropWhile_le_self {α : Type} (p : α → Bool) (l : List α) :
    (l.dropWhile p).length ≤ l.length := by
  induction l with
  | nil => simp
  | cons c t ih =>
    by_cases h : p c
    · simp only [List.dropWhile_cons, h, if_true, List.length_cons]
      omega
    · simp [List.dropWhile_cons, h]

/-- A successful digit run consumes at least one character. -/
theorem readDigitRun_shrinks {sg : Int} {cs rest : List Char} {v : Int}
    (h : readDigitRun sg cs = some (v, rest)) : rest.length < cs.length := by
  unfold readDigitRun at h
  by_cases hds : (cs.takeWhile Char.isDigit).isEmpty
  · simp [hds] at h
  · have hne : cs.takeWhile Char.isDigit ≠ [] := by
      simpa [List.isEmpty_iff] using hds
    have hcs : cs ≠ [] := by
      intro hnil; exact hne (by simp [hnil])
    obtain ⟨c, t, rfl⟩ := List.exists_cons_of_ne_nil hcs
    have hcdig : Char.isDigit c := by
      by_contra hnd
      exact hne (by simp [List.takeWhile_cons, hnd])
    rw [if_neg hds] at h
    simp only [Option.some.injEq, Prod.mk.injEq] at h
    have h2 := h.2
    rw [List.dropWhile_cons, if_pos hcdig] at h2
    have hlen : rest.length ≤ t.length := by
      rw [← h2]
      exact length_dropWhile_le_self Char.isDigit t
    simp only [List.length_cons]
    omega

/-- A successful `readIntTrimmed` consumes at least one character. -/
theorem readIntTrimmed_shrinks {l rest : List Char} {v : Int}
    (h : readIntTrimmed l = some (v, rest)) : rest.length < l.length := by
  unfold readIntTrimmed at h
  split at h <;>
    first
    | exact readDigitRun_shrinks h
    | · have hs := readDigitRun_shrinks h
        simp only [List.length_cons]
        omega

/-- A successful `readInt` consumes at least one character. -/
theorem readInt_shrinks {cs rest : List Char} {v : Int}
    (h : readInt cs = some (v, rest)) : rest.length < cs.length := by
  have h2 : readIntTrimmed (cs.dropWhile isSpaceC) = some (v, rest) := h
  exact lt_of_lt_of_le (readIntTrimmed_shrinks h2) (length_dropWhile_le_self isSpaceC cs)

/-- `while (iss >> val) values.push_back(val)`: read ints until one fails. -/
def readIntsAll (cs : List Char) : List Int :=
  match h : readInt cs with
  | some p => p.1 :: readIntsAll p.2
  | none => []
termination_by cs.length
decreasing_by exact readInt_shrinks (by rw [h])

/-- The element branch of the simple loop: collect every int of the line;
    with at least four, the first three are id/material/property, the count
    of the rest picks the topology (3, 4, 8 recognized). -/
def elementStep (l : String) (st : SState) : SState :=
  let vals := readIntsAll l.toList
  match vals with
  | v0 :: v1 :: v2 :: rest =>
    if vals.length ≥ 4 then
      let ty : EType :=
        match rest.length with
        | 3 => .TRIA3
        | 4 => .QUAD4
        | 8 => .HEXA8
        | _ => .UNKNOWN
      { st with elements := st.elements ++ [⟨v0, ty, rest, v1, v2⟩] }
    else st
  | _ => st

/-- The node branch: a line whose four leading fields extract becomes a node,
    any other line is silently skipped. -/
def nodeStep (l : String) (st : SState) : SState :=
  match readNodeRecord l.toList with
  | some n => { st with nodes := st.nodes ++ [n] }
  | none => st

/-- The `while (std::getline...)` loop of the simple `loadFile`: comment
    skip on the raw line, keyword containment switching `inNodes` /
    `inElements`, `/TITLE` consuming the next raw line verbatim, then the
    per-flag record branches.  The extra leading flag marks that a `/TITLE`
    marker was just seen, so the next raw line is taken as the title before
    any other test — the same order of reads as the nested `std::getline`. -/
def parseLoop : Bool → Bool → Bool → List String → SState → SState
  | _, _, _, [], st => st
  | expectTitle, inN, inE, l :: rest, st =>
    if expectTitle then parseLoop false inN inE rest { st with title := l }
    else if rawSkipped l then parseLoop false inN inE rest st
    else if strContainsSub l "/NODE" then parseLoop false true false rest st
    else if strContainsSub l "/SHELL" || strContainsSub l "/BRICK" || strContainsSub l "/TRIA" then
      parseLoop false false true rest st
    else if strContainsSub l "/TITLE" then parseLoop true inN inE rest st
    else
      let st1 := if inN then nodeStep l st else st
      let st2 := if inE then elementStep l st1 else st1
      parseLoop false inN inE rest st2

/-- The simple `RadFileReader::loadFile` past a successful open: run the
    loop from a cleared state, then `isValid_ = !nodes_.empty()` is the
    returned value. -/
def loadLines (lines : List String) : Bool × SState :=
  let st := parseLoop false false false lines emptySState
  let valid : Bool := decide (st.nodes ≠ [])
  (valid, { st with isValid := valid })

/-- The simple `RadFileReader::getBoundingBox` (same body as the structured
    one): origin pair when empty, else a min/max pass seeded by the head. -/
def getBoundingBoxS (st : SState) : Vec3 × Vec3 :=
  match st.nodes with
  | [] => (vzero, vzero)
  | n0 :: _ =>
    (st.nodes.foldl (fun acc nd => vmin acc nd.position) n0.position,
     st.nodes.foldl (fun acc nd => vmax acc nd.position) n0.position)

end SimpleRad

/-! ## The writer (`RadFileReader::saveFile` and the `write*` methods of
`src/io/RadFileReader.cpp`)

The `std::ofstream` sink is modelled as the list of lines written.  Field
emission mirrors `operator<<`: `std::setw(w)` right-justifies the next item
in `w` columns with space fill (never truncating), an `int` prints as an
optional minus sign and decimal digits, and a `double` under
`std::scientific` with `std::setprecision(6)` prints as `d.dddddd` followed
by `e`, a sign and a two-or-more digit exponent — the mantissa being the
correctly rounded (ties to even) 7-digit decimal of the value, which under
this file's exact-rational float convention is the stored rational itself.
The stream is always good on the in-memory sink, so every `file.good()`
check passes and `saveFile` returns true whenever the validity gate lets it
write. -/

/-- `std::setw(w)` with the default right adjustment and space fill. -/
def padField (w : Nat) (cs : List Char) : List Char :=
  List.replicate (w - cs.length) ' ' ++ cs

/-- One decimal digit character. -/
def digitChar : Nat → Char
  | 0 => '0' | 1 => '1' | 2 => '2' | 3 => '3' | 4 => '4'
  | 5 => '5' | 6 => '6' | 7 => '7' | 8 => '8' | _ => '9'

/-- The decimal digits of `n`, most significant first.  The fuel argument
    (always ample at `n + 1`) keeps the recursion structural. -/
def natCharsGo : Nat → Nat → List Char
  | 0, _ => []
  | fuel + 1, n =>
    if n < 10 then [digitChar n]
    else natCharsGo fuel (n / 10) ++ [digitChar (n % 10)]

def natChars (n : Nat) : List Char := natCharsGo (n + 1) n

/-- `operator<<` on `int`. -/
def intChars : Int → List Char
  | .ofNat n => natChars n
  | .negSucc m => '-' :: natChars (m + 1)

/-- First exponent estimate for `a > 0`, from the digit counts of the
    reduced numerator and denominator (correct up to one, fixed below). -/
def sciExpRaw (a : ℚ) : Int :=
  ((natChars a.num.natAbs).length : Int) - ((natChars a.den).length : Int)

/-- The decimal exponent of `a > 0`: the `e` with `10^e ≤ a < 10^(e+1)`. -/
def sciExp (a : ℚ) : Int :=
  let c := sciExpRaw a
  if a < (10 : ℚ) ^ c then c - 1 else c

/-- Round to the nearest integer, ties to even (the IEEE default rounding
    that `printf`-style emission applies to the digit string). -/
def roundEven (q : ℚ) : Int :=
  let f := ⌊q⌋
  if (1 / 2 : ℚ) < q - (f : ℚ) then f + 1
  else if q - (f : ℚ) < (1 / 2 : ℚ) then f
  else if f % 2 = 0 then f else f + 1

/-- The 7 mantissa digits (as one number in `[10^6, 10^7)`) and the final
    exponent of `a > 0` at precision 6; a mantissa rounded up to `10^7`
    renormalizes with the exponent bumped. -/
def sciDigits (a : ℚ) : Int × Int :=
  let e := sciExp a
  let n := roundEven (a * (10 : ℚ) ^ ((6 : Int) - e))
  if n = 10 ^ 7 then (10 ^ 6, e + 1) else (n, e)

/-- The exponent field `e±dd` (sign always printed, at least two digits). -/
def expChars (e : Int) : List Char :=
  let ds := natChars e.natAbs
  'e' :: (if e < 0 then '-' else '+') :: (if ds.length < 2 then '0' :: ds else ds)

/-- `std::scientific` / `std::setprecision(6)` emission of one value. -/
def sciChars (q : ℚ) : List Char :=
  if q = 0 then ['0', '.', '0', '0', '0', '0', '0', '0', 'e', '+', '0', '0']
  else
    let a := if q < 0 then -q else q
    let p := sciDigits a
    match natChars p.1.natAbs with
    | d :: rest => (if q < 0 then ['-'] else []) ++ d :: '.' :: rest ++ expChars p.2
    | [] => []

/-- The rational value the emitted literal denotes: first digit, point,
    remaining digits, times ten to the printed exponent.  Re-reading the
    field recovers exactly this value — the original rounded to the seven
    emitted significant digits. -/
def sciVal (q : ℚ) : ℚ :=
  if q = 0 then 0
  else
    let a := if q < 0 then -q else q
    let p := sciDigits a
    let ds := natChars p.1.natAbs
    (if q < 0 then (-1 : ℚ) else 1) *
      ((digitsVal ds : ℚ) / (10 : ℚ) ^ (ds.length - 1)) * (10 : ℚ) ^ p.2

/-- A record line: each field `std::setw`-padded and written in sequence. -/
def emitFields (fs : List (Nat × List Char)) : List Char :=
  (fs.map (fun p => padField p.1 p.2)).join

/-- One `writeNodes` data line. -/
def nodeLineChars (nd : Node) : List Char :=
  emitFields [(10, intChars nd.id), (20, sciChars nd.position.x),
    (20, sciChars nd.position.y), (20, sciChars nd.position.z)]

/-- `RadFileReader::writeNodes`. -/
def writeNodesLines (st : RState) : List String :=
  if st.nodes.isEmpty then []
  else "/NODE" :: st.nodes.map (fun nd => (⟨nodeLineChars nd⟩ : String))

/-- One `writeElements` data line. -/
def elemLineChars (e : Element) : List Char :=
  emitFields ((10, intChars e.id) :: (10, intChars e.materialId) ::
    (10, intChars e.propertyId) :: e.nodeIds.map (fun nid => (10, intChars nid)))

/-- The section marker `writeElements` puts before each topology group
    (the default switch branch emits `/SHELL`). -/
def elemHeader : EType → String
  | .TRIA3 => "/SH3N"
  | .QUAD4 => "/SHELL"
  | .TETRA4 => "/TETRA4"
  | .HEXA8 => "/BRICK"
  | .PENTA6 => "/PENTA6"
  | .PYRAM5 => "/PYRAM5"
  | .UNKNOWN => "/SHELL"

/-- One fixed enumeration of the topology tags.  `writeElements` buckets
    the elements by type in an `unordered_map`, whose iteration order the
    C++ standard leaves unspecified; the statements proved below are
    insensitive to the group order, so the groups are emitted in this fixed
    order, each group keeping the vector order of its members. -/
def typeOrder : List EType :=
  [.UNKNOWN, .TRIA3, .QUAD4, .TETRA4, .HEXA8, .PENTA6, .PYRAM5]

/-- The lines of one topology group: nothing for an empty bucket, else the
    group's marker followed by its element records. -/
def elemGroupLines (st : RState) (ty : EType) : List String :=
  let g := st.elements.filter (fun e => e.type = ty)
  if g.isEmpty then []
  else elemHeader ty :: g.map (fun e => (⟨elemLineChars e⟩ : String))

/-- `RadFileReader::writeElements`. -/
def writeElementsLines (st : RState) : List String :=
  (typeOrder.map (elemGroupLines st)).join

/-- `std::map` iterates its keys in ascending order; the attribute bag is
    put in key order before emission (insertion sort — only the order
    matters here). -/
def insertByName (p : String × ℚ) : List (String × ℚ) → List (String × ℚ)
  | [] => [p]
  | q :: rest => if p.1 < q.1 then p :: q :: rest else q :: insertByName p rest

def sortByName : List (String × ℚ) → List (String × ℚ)
  | [] => []
  | p :: rest => insertByName p (sortByName rest)

/-- The data line of one `writeMaterials` entry: the id and the bag's
    values in key order. -/
def matDataChars (m : Material) : List Char :=
  emitFields ((10, intChars m.id) :: (sortByName m.properties).map (fun p => (20, sciChars p.2)))

/-- The two lines of one `writeMaterials` entry: `/MAT/<law>`, then the id
    and the bag's values in key order. -/
def matLines (m : Material) : List String :=
  ["/MAT/" ++ m.type, (⟨matDataChars m⟩ : String)]

/-- `RadFileReader::writeMaterials`. -/
def writeMaterialsLines (st : RState) : List String :=
  (st.materials.map matLines).join

/-- The data line of one `writeProperties` entry. -/
def propDataChars (p : RProperty) : List Char :=
  emitFields ((10, intChars p.id) :: (sortByName p.values).map (fun q => (20, sciChars q.2)))

/-- The two lines of one `writeProperties` entry. -/
def propLines (p : RProperty) : List String :=
  ["/PROP/" ++ p.type, (⟨propDataChars p⟩ : String)]

/-- `RadFileReader::writeProperties`. -/
def writePropertiesLines (st : RState) : List String :=
  (st.properties.map propLines).join

/-- The data line of one `writeLoadCases` entry. -/
def loadDataChars (lc : LoadCase) : List Char :=
  emitFields ((10, intChars lc.id) :: (20, sciChars lc.magnitude) ::
    (20, sciChars lc.vector.x) :: (20, sciChars lc.vector.y) ::
    (20, sciChars lc.vector.z) ::
    lc.nodeIds.map (fun nid => (10, intChars nid)))

/-- The two lines of one `writeLoadCases` entry: `/CLOAD`, then id,
    magnitude, the vector components and the node ids (no type field). -/
def loadCaseLines (lc : LoadCase) : List String :=
  ["/CLOAD", (⟨loadDataChars lc⟩ : String)]

/-- `RadFileReader::writeLoadCases`. -/
def writeLoadCasesLines (st : RState) : List String :=
  (st.loadCases.map loadCaseLines).join

/-- The data line of one `writeBoundaryConditions` entry: the padded id,
    the DOF integers juxtaposed unpadded, one empty 10-column field, and
    the padded node ids. -/
def bcDataChars (bc : BoundaryCondition) : List Char :=
  padField 10 (intChars bc.id) ++ (bc.dofs.map intChars).join ++
    List.replicate 10 ' ' ++ (bc.nodeIds.map (fun nid => padField 10 (intChars nid))).join

/-- The two lines of one `writeBoundaryConditions` entry: `/BCS`, then the
    id/DOF/node record. -/
def bcLines (bc : BoundaryCondition) : List String :=
  ["/BCS", (⟨bcDataChars bc⟩ : String)]

/-- `RadFileReader::writeBoundaryConditions`. -/
def writeBoundaryConditionsLines (st : RState) : List String :=
  (st.boundaryConditions.map bcLines).join

/-- `RadFileReader::writeHeader`: banner comment, `/BEGIN`, and the title
    block when a title is set. -/
def writeHeaderLines (st : RState) : List String :=
  ["#RADIOSS STARTER", "/BEGIN"] ++ (if st.title = "" then [] else ["/TITLE", st.title])

/-- Every line `saveFile` writes, in call order. -/
def saveLines (st : RState) : List String :=
  writeHeaderLines st ++ writeNodesLines st ++ writeElementsLines st ++
    writeMaterialsLines st ++ writePropertiesLines st ++ writeLoadCasesLines st ++
    writeBoundaryConditionsLines st

/-- `RadFileReader::saveFile` with the stream as the written line list: an
    invalid model refuses to write (`none`); the in-memory sink always
    opens and stays good. -/
def saveFile (st : RState) : Option (List String) :=
  if st.isValid then some (saveLines st) else none

/-! ## Digit and field lemmas for the written lines -/

/-- The ten digit characters. -/
def digitList : List Char := ['0', '1', '2', '3', '4', '5', '6', '7', '8', '9']

/-- The characters a written numeric field can contain. -/
def tokenList : List Char :=
  ['0', '1', '2', '3', '4', '5', '6', '7', '8', '9', '-', '+', '.', 'e']

/-- The characters a written data line can contain. -/
def lineList : List Char := ' ' :: tokenList

theorem digit_sub_token : ∀ c ∈ digitList, c ∈ tokenList := by decide

theorem token_sub_line : ∀ c ∈ tokenList, c ∈ lineList := by decide

theorem digit_class : ∀ c ∈ digitList,
    Char.isDigit c = true ∧ isTrimWs c = false ∧ isSpaceC c = false := by decide

theorem token_class : ∀ c ∈ tokenList,
    isTrimWs c = false ∧ c ≠ ' ' ∧ c ≠ '#' ∧ c ≠ 'C' ∧ c ≠ 'c' := by decide

theorem line_upper : ∀ c ∈ lineList, Char.toUpper c ≠ '/' := by decide

theorem digitChar_mem (n : Nat) : digitChar n ∈ digitList := by
  rcases n with _ | _ | _ | _ | _ | _ | _ | _ | _ | n
  case succ.succ.succ.succ.succ.succ.succ.succ.succ =>
    show ('9' : Char) ∈ digitList
    decide
  all_goals decide

theorem digitChar_val (n : Nat) (h : n < 10) : (digitChar n).toNat - 48 = n := by
  interval_cases n <;> decide

theorem digitsVal_go (a : Nat) (cs : List Char) :
    cs.foldl (fun b c => b * 10 + (c.toNat - 48)) a = a * 10 ^ cs.length + digitsVal cs := by
  induction cs generalizing a with
  | nil => simp [digitsVal]
  | cons c cs ih =>
    have h1 : digitsVal (c :: cs) = (c.toNat - 48) * 10 ^ cs.length + digitsVal cs := by
      show cs.foldl (fun b c => b * 10 + (c.toNat - 48)) (0 * 10 + (c.toNat - 48)) = _
      rw [ih]
      simp
    rw [List.foldl_cons, ih, h1, List.length_cons]
    ring

theorem digitsVal_cons (c : Char) (cs : List Char) :
    digitsVal (c :: cs) = (c.toNat - 48) * 10 ^ cs.length + digitsVal cs := by
  show cs.foldl (fun b c => b * 10 + (c.toNat - 48)) (0 * 10 + (c.toNat - 48)) = _
  rw [digitsVal_go]
  simp

theorem digitsVal_single (c : Char) : digitsVal [c] = c.toNat - 48 := by
  simp [digitsVal]

theorem natCharsGo_spec (fuel : Nat) : ∀ n < fuel, natCharsGo fuel n ≠ [] ∧
    (∀ c ∈ natCharsGo fuel n, c ∈ digitList) ∧ digitsVal (natCharsGo fuel n) = n := by
  induction fuel with
  | zero => intro n hn; omega
  | succ fuel ih =>
    intro n hn
    rw [natCharsGo]
    by_cases h10 : n < 10
    · rw [if_pos h10]
      refine ⟨by simp, ?_, ?_⟩
      · intro c hc
        rw [List.mem_singleton] at hc
        exact hc ▸ digitChar_mem n
      · rw [digitsVal_single, digitChar_val n h10]
    · rw [if_neg h10]
      have hdiv : n / 10 < fuel := by
        have := Nat.div_lt_self (by omega : 0 < n) (by omega : 1 < 10)
        omega
      obtain ⟨hne, hmem, hval⟩ := ih (n / 10) hdiv
      refine ⟨by simp, ?_, ?_⟩
      · intro c hc
        rw [List.mem_append] at hc
        rcases hc with hc | hc
        · exact hmem c hc
        · rw [List.mem_singleton] at hc
          exact hc ▸ digitChar_mem (n % 10)
      · rw [digitsVal, List.foldl_append, digitsVal_go, ← digitsVal, hval]
        simp only [List.length_singleton, pow_one, digitsVal_single]
        rw [digitChar_val (n % 10) (Nat.mod_lt n (by omega))]
        omega

theorem natChars_spec (n : Nat) : natChars n ≠ [] ∧
    (∀ c ∈ natChars n, c ∈ digitList) ∧ digitsVal (natChars n) = n :=
  natCharsGo_spec (n + 1) n (Nat.lt_succ_self n)

theorem intChars_ne_nil (i : Int) : intChars i ≠ [] := by
  cases i with
  | ofNat n => exact (natChars_spec n).1
  | negSucc m => simp [intChars]

theorem intChars_mem (i : Int) : ∀ c ∈ intChars i, c ∈ tokenList := by
  cases i with
  | ofNat n => exact fun c hc => digit_sub_token c ((natChars_spec n).2.1 c hc)
  | negSucc m =>
    intro c hc
    rw [intChars, List.mem_cons] at hc
    rcases hc with hc | hc
    · subst hc; decide
    · exact digit_sub_token c ((natChars_spec (m + 1)).2.1 c hc)

/-! ### takeWhile / dropWhile helpers -/

theorem takeWhile_of_all {α : Type} (p : α → Bool) (l : List α)
    (h : ∀ a ∈ l, p a = true) : l.takeWhile p = l := by
  induction l with
  | nil => rfl
  | cons a l ih =>
    rw [List.takeWhile_cons, h a (List.mem_cons_self a l), if_pos rfl]
    rw [ih (fun b hb => h b (List.mem_cons_of_mem a hb))]

theorem dropWhile_of_all_true {α : Type} (p : α → Bool) (l : List α)
    (h : ∀ a ∈ l, p a = true) : l.dropWhile p = [] := by
  induction l with
  | nil => rfl
  | cons a l ih =>
    rw [List.dropWhile_cons, h a (List.mem_cons_self a l), if_pos rfl]
    exact ih (fun b hb => h b (List.mem_cons_of_mem a hb))

theorem dropWhile_of_all_false {α : Type} (p : α → Bool) (l : List α)
    (h : ∀ a ∈ l, p a = false) : l.dropWhile p = l := by
  cases l with
  | nil => rfl
  | cons a l => rw [List.dropWhile_cons, h a (List.mem_cons_self a l)]; simp

theorem takeWhile_append_stop {α : Type} (p : α → Bool) (xs : List α) (y : α) (ys : List α)
    (hxs : ∀ a ∈ xs, p a = true) (hy : p y = false) :
    ((xs ++ y :: ys).takeWhile p) = xs := by
  induction xs with
  | nil => simp [List.takeWhile_cons, hy]
  | cons a xs ih =>
    rw [List.cons_append, List.takeWhile_cons, hxs a (List.mem_cons_self a xs), if_pos rfl,
      ih (fun b hb => hxs b (List.mem_cons_of_mem a hb))]

theorem dropWhile_append_stop {α : Type} (p : α → Bool) (xs : List α) (y : α) (ys : List α)
    (hxs : ∀ a ∈ xs, p a = true) (hy : p y = false) :
    ((xs ++ y :: ys).dropWhile p) = y :: ys := by
  induction xs with
  | nil => simp [List.dropWhile_cons, hy]
  | cons a xs ih =>
    rw [List.cons_append, List.dropWhile_cons, hxs a (List.mem_cons_self a xs), if_pos rfl,
      ih (fun b hb => hxs b (List.mem_cons_of_mem a hb))]

theorem dropWhile_append_last {α : Type} (p : α → Bool) (l : List α) (x : α)
    (h : p x = false) : ((l ++ [x]).dropWhile p) = l.dropWhile p ++ [x] := by
  induction l with
  | nil => simp [List.dropWhile_cons, h]
  | cons a l ih =>
    rw [List.cons_append, List.dropWhile_cons, List.dropWhile_cons]
    cases hpa : p a <;> simp [ih]

/-! ### `std::stoi` recovers a written integer field -/

theorem readIntTrimmed_digit (c : Char) (t : List Char) (h : c ∈ digitList) :
    readIntTrimmed (c :: t) = readDigitRun 1 (c :: t) := by
  fin_cases h <;> rfl

theorem readDigitRun_all (sg : Int) (cs : List Char) (hne : cs ≠ [])
    (h : ∀ c ∈ cs, c ∈ digitList) :
    readDigitRun sg cs = some (sg * (digitsVal cs : Int), []) := by
  unfold readDigitRun
  have hd : ∀ c ∈ cs, Char.isDigit c = true := fun c hc => (digit_class c (h c hc)).1
  rw [takeWhile_of_all _ _ hd, dropWhile_of_all_true _ _ hd]
  rw [if_neg (by simpa [List.isEmpty_iff] using hne)]

theorem stoiOpt_intChars (i : Int) : stoiOpt ⟨intChars i⟩ = some i := by
  have htl : (⟨intChars i⟩ : String).toList = intChars i := rfl
  unfold stoiOpt readInt
  rw [htl]
  cases i with
  | ofNat n =>
    obtain ⟨hne, hmem, hval⟩ := natChars_spec n
    have hns : ∀ c ∈ natChars n, isSpaceC c = false :=
      fun c hc => (digit_class c (hmem c hc)).2.2
    rw [show intChars (Int.ofNat n) = natChars n from rfl]
    rw [dropWhile_of_all_false _ _ hns]
    cases hcs : natChars n with
    | nil => exact absurd hcs hne
    | cons c t =>
      rw [readIntTrimmed_digit c t (hmem c (by rw [hcs]; exact List.mem_cons_self c t))]
      rw [← hcs, readDigitRun_all 1 (natChars n) hne hmem, hval]
      simp
  | negSucc m =>
    obtain ⟨hne, hmem, hval⟩ := natChars_spec (m + 1)
    rw [show intChars (Int.negSucc m) = '-' :: natChars (m + 1) from rfl]
    rw [List.dropWhile_cons]
    rw [show isSpaceC '-' = false from rfl]
    simp only [Bool.false_eq_true, if_false]
    rw [show readIntTrimmed ('-' :: natChars (m + 1)) = readDigitRun (-1) (natChars (m + 1))
      from rfl]
    rw [readDigitRun_all (-1) (natChars (m + 1)) hne hmem, hval]
    show some ((-1 : Int) * ((m + 1 : Nat) : Int)) = some (Int.negSucc m)
    congr 1
    rw [Int.negSucc_eq]
    push_cast
    ring

/-! ### `std::stod` recovers the value a written float field denotes -/

/-- The mantissa-and-exponent tail of `readFloat`, once leading blanks and
    the sign are consumed (`sg` the sign factor): the same let chain as in
    `readFloat`, shared so that the sign cases reduce to one body. -/
def readFloatBody (sg : ℚ) (cs2 : List Char) : Option (ℚ × List Char) :=
  let ip := cs2.takeWhile Char.isDigit
  let cs3 := cs2.dropWhile Char.isDigit
  let (fp, cs4) : List Char × List Char :=
    match cs3 with
    | '.' :: r => (r.takeWhile Char.isDigit, r.dropWhile Char.isDigit)
    | _ => ([], cs3)
  if ip.isEmpty && fp.isEmpty then none
  else
    let mant : ℚ := sg * ((digitsVal ip : ℚ) + (digitsVal fp : ℚ) / (10 : ℚ) ^ fp.length)
    match cs4 with
    | 'e' :: r | 'E' :: r =>
      let (esg, r2) : Int × List Char :=
        match r with
        | '+' :: rr => (1, rr)
        | '-' :: rr => (-1, rr)
        | _ => (1, r)
      let eds := r2.takeWhile Char.isDigit
      if eds.isEmpty then some (mant, cs4)
      else some (mant * (10 : ℚ) ^ (esg * (digitsVal eds : Int)), r2.dropWhile Char.isDigit)
    | _ => some (mant, cs4)

theorem readFloat_neg (cs : List Char) : readFloat ('-' :: cs) = readFloatBody (-1) cs := rfl

theorem readFloat_digit (c : Char) (cs : List Char) (h : c ∈ digitList) :
    readFloat (c :: cs) = readFloatBody 1 (c :: cs) := by
  fin_cases h <;> rfl

theorem readFloatBody_emitted (sg : ℚ) (d sc : Char) (frac eds : List Char) (esg : Int)
    (hd : d ∈ digitList) (hfrac : ∀ c ∈ frac, c ∈ digitList)
    (hne : eds ≠ []) (hmem : ∀ c ∈ eds, c ∈ digitList)
    (hsc : (sc = '+' ∧ esg = 1) ∨ (sc = '-' ∧ esg = -1)) :
    readFloatBody sg (d :: '.' :: (frac ++ 'e' :: sc :: eds)) =
      some (sg * ((digitsVal [d] : ℚ) + (digitsVal frac : ℚ) / (10 : ℚ) ^ frac.length)
        * (10 : ℚ) ^ (esg * (digitsVal eds : Int)), []) := by
  have hdd : Char.isDigit d = true := (digit_class d hd).1
  have hfd : ∀ c ∈ frac, Char.isDigit c = true := fun c hc => (digit_class c (hfrac c hc)).1
  have hed : ∀ c ∈ eds, Char.isDigit c = true := fun c hc => (digit_class c (hmem c hc)).1
  have hip : List.takeWhile Char.isDigit (d :: '.' :: (frac ++ 'e' :: sc :: eds)) = [d] := by
    rw [List.takeWhile_cons, hdd, if_pos rfl, List.takeWhile_cons]
    rw [show Char.isDigit '.' = false from rfl]
    simp
  have hcs3 : List.dropWhile Char.isDigit (d :: '.' :: (frac ++ 'e' :: sc :: eds))
      = '.' :: (frac ++ 'e' :: sc :: eds) := by
    rw [List.dropWhile_cons, hdd, if_pos rfl, List.dropWhile_cons]
    rw [show Char.isDigit '.' = false from rfl]
    simp
  have hfp : List.takeWhile Char.isDigit (frac ++ 'e' :: sc :: eds) = frac :=
    takeWhile_append_stop _ _ _ _ hfd (by rfl)
  have hcs4 : List.dropWhile Char.isDigit (frac ++ 'e' :: sc :: eds) = 'e' :: sc :: eds :=
    dropWhile_append_stop _ _ _ _ hfd (by rfl)
  have hee : eds.isEmpty = false := by simpa [List.isEmpty_iff] using hne
  have hetake : List.takeWhile Char.isDigit eds = eds := takeWhile_of_all _ _ hed
  have hedrop : List.dropWhile Char.isDigit eds = [] := dropWhile_of_all_true _ _ hed
  rcases hsc with ⟨rfl, rfl⟩ | ⟨rfl, rfl⟩ <;>
    simp only [readFloatBody, hip, hcs3, hfp, hcs4, hetake, hedrop, hee,
      List.isEmpty_cons, Bool.false_and, Bool.false_eq_true, if_false]

theorem expChars_spec (e : Int) : ∃ esg sc eds, expChars e = 'e' :: sc :: eds ∧ eds ≠ [] ∧
    (∀ c ∈ eds, c ∈ digitList) ∧
    ((sc = '+' ∧ esg = 1) ∨ (sc = '-' ∧ esg = (-1 : Int))) ∧
    esg * (digitsVal eds : Int) = e := by
  obtain ⟨hne, hmem, hval⟩ := natChars_spec e.natAbs
  have hpad : digitsVal ('0' :: natChars e.natAbs) = digitsVal (natChars e.natAbs) := by
    rw [digitsVal_cons, show ('0' : Char).toNat - 48 = 0 from rfl]
    simp
  refine ⟨if e < 0 then -1 else 1, if e < 0 then '-' else '+',
    if (natChars e.natAbs).length < 2 then '0' :: natChars e.natAbs else natChars e.natAbs,
    rfl, ?_, ?_, ?_, ?_⟩
  · split <;> simp [hne]
  · split
    · intro c hc
      rcases List.mem_cons.mp hc with rfl | hc
      · decide
      · exact hmem c hc
    · exact hmem
  · by_cases hneg : e < 0
    · rw [if_pos hneg, if_pos hneg]; exact Or.inr ⟨rfl, rfl⟩
    · rw [if_neg hneg, if_neg hneg]; exact Or.inl ⟨rfl, rfl⟩
  · have h3 : digitsVal (if (natChars e.natAbs).length < 2 then '0' :: natChars e.natAbs
        else natChars e.natAbs) = e.natAbs := by
      split
      · rw [hpad, hval]
      · exact hval
    rw [h3]
    by_cases hneg : e < 0
    · rw [if_pos hneg]; omega
    · rw [if_neg hneg]; omega

theorem sciChars_shape (q : ℚ) (hq : q ≠ 0) : ∃ d rest ex,
    sciChars q = (if q < 0 then ['-'] else []) ++ d :: '.' :: (rest ++ expChars ex) ∧
    d ∈ digitList ∧ (∀ c ∈ rest, c ∈ digitList) ∧
    sciVal q = (if q < 0 then (-1 : ℚ) else 1) *
      ((digitsVal (d :: rest) : ℚ) / (10 : ℚ) ^ rest.length) * (10 : ℚ) ^ ex := by
  obtain ⟨hne, hmem, hval⟩ := natChars_spec (sciDigits (if q < 0 then -q else q)).1.natAbs
  cases hds : natChars (sciDigits (if q < 0 then -q else q)).1.natAbs with
  | nil => exact absurd hds hne
  | cons d rest =>
    rw [hds] at hmem
    refine ⟨d, rest, (sciDigits (if q < 0 then -q else q)).2, ?_,
      hmem d (List.mem_cons_self d rest), fun c hc => hmem c (List.mem_cons_of_mem d hc), ?_⟩
    · simp only [sciChars, if_neg hq, hds]
      simp [List.append_assoc]
    · simp only [sciVal, if_neg hq, hds, List.length_cons, Nat.add_sub_cancel]

theorem sciChars_mem (q : ℚ) : ∀ c ∈ sciChars q, c ∈ tokenList := by
  by_cases hq : q = 0
  · subst hq
    rw [show sciChars 0 = ['0', '.', '0', '0', '0', '0', '0', '0', 'e', '+', '0', '0'] from rfl]
    decide
  · obtain ⟨d, rest, ex, hsh, hd, hrest, _⟩ := sciChars_shape q hq
    obtain ⟨esg, sc, eds, hexp, _, hmem, hsc, _⟩ := expChars_spec ex
    rw [hsh, hexp]
    intro c hc
    rw [List.mem_append] at hc
    rcases hc with hc | hc
    · split at hc
      · rw [List.mem_singleton] at hc
        subst hc; decide
      · exact absurd hc (List.not_mem_nil c)
    · rw [List.mem_cons] at hc
      rcases hc with rfl | hc
      · exact digit_sub_token _ hd
      rw [List.mem_cons] at hc
      rcases hc with rfl | hc
      · decide
      rw [List.mem_append] at hc
      rcases hc with hc | hc
      · exact digit_sub_token c (hrest c hc)
      rw [List.mem_cons] at hc
      rcases hc with rfl | hc
      · decide
      rw [List.mem_cons] at hc
      rcases hc with rfl | hc
      · rcases hsc with ⟨rfl, _⟩ | ⟨rfl, _⟩ <;> decide
      · exact digit_sub_token c (hmem c hc)

theorem sciChars_ne_nil (q : ℚ) : sciChars q ≠ [] := by
  by_cases hq : q = 0
  · subst hq
    rw [show sciChars 0 = ['0', '.', '0', '0', '0', '0', '0', '0', 'e', '+', '0', '0'] from rfl]
    decide
  · obtain ⟨d, rest, ex, hsh, _, _, _⟩ := sciChars_shape q hq
    rw [hsh]
    split <;> simp

theorem stofOpt_sciChars (q : ℚ) : stofOpt ⟨sciChars q⟩ = some (sciVal q) := by
  by_cases hq : q = 0
  · subst hq
    unfold stofOpt
    rw [show (⟨sciChars 0⟩ : String).toList
        = '0' :: '.' :: (['0', '0', '0', '0', '0', '0'] ++ 'e' :: '+' :: ['0', '0']) from rfl]
    rw [readFloat_digit '0' _ (by decide),
      readFloatBody_emitted 1 '0' '+' ['0', '0', '0', '0', '0', '0'] ['0', '0'] 1 (by decide)
        (by decide) (by decide) (by decide) (Or.inl ⟨rfl, rfl⟩)]
    rw [show sciVal 0 = 0 from by unfold sciVal; rw [if_pos rfl]]
    show some ((1 : ℚ) * ((digitsVal ['0'] : ℚ)
        + (digitsVal ['0', '0', '0', '0', '0', '0'] : ℚ) / (10 : ℚ) ^ (6 : Nat))
        * (10 : ℚ) ^ ((1 : Int) * (digitsVal ['0', '0'] : Nat))) = some 0
    rw [show digitsVal ['0'] = 0 from rfl,
      show digitsVal ['0', '0', '0', '0', '0', '0'] = 0 from rfl,
      show digitsVal ['0', '0'] = 0 from rfl]
    norm_num
  · obtain ⟨d, rest, ex, hsh, hd, hrest, hval⟩ := sciChars_shape q hq
    obtain ⟨esg, sc, eds, hexp, hne, hmem, hsc, hesg⟩ := expChars_spec ex
    unfold stofOpt
    rw [show (⟨sciChars q⟩ : String).toList = sciChars q from rfl, hsh, hexp, hval]
    have halg : ∀ sgn : ℚ,
        sgn * ((digitsVal [d] : ℚ) + (digitsVal rest : ℚ) / (10 : ℚ) ^ rest.length)
            * (10 : ℚ) ^ (esg * (digitsVal eds : Int))
          = sgn * ((digitsVal (d :: rest) : ℚ) / (10 : ℚ) ^ rest.length) * (10 : ℚ) ^ ex := by
      intro sgn
      rw [hesg, digitsVal_single, digitsVal_cons]
      have h10 : ((10 : ℚ) ^ rest.length) ≠ 0 := by positivity
      push_cast
      field_simp
    by_cases hneg : q < 0
    · rw [if_pos hneg, if_pos hneg]
      rw [show (['-'] : List Char) ++ d :: '.' :: (rest ++ 'e' :: sc :: eds)
          = '-' :: (d :: '.' :: (rest ++ 'e' :: sc :: eds)) from rfl]
      rw [readFloat_neg, readFloatBody_emitted (-1) d sc rest eds esg hd hrest hne hmem hsc]
      show some _ = some _
      rw [halg (-1)]
    · rw [if_neg hneg, if_neg hneg]
      rw [List.nil_append]
      rw [readFloat_digit d _ hd, readFloatBody_emitted 1 d sc rest eds esg hd hrest hne hmem hsc]
      show some _ = some _
      rw [halg 1]

/-! ### Tokenization of a written line -/

/-- `tokenizeLine` at the character level. -/
def tokChars (cs : List Char) : List String :=
  ((splitSeg cs).map (fun g => trim ⟨g⟩)).filter (fun t => t ≠ "")

theorem tokenizeLine_mk (cs : List Char) : tokenizeLine ⟨cs⟩ = tokChars cs := rfl

theorem trim_mk_of_clean (cs : List Char) (h : ∀ c ∈ cs, isTrimWs c = false) :
    trim ⟨cs⟩ = ⟨cs⟩ := by
  show (⟨((cs.dropWhile isTrimWs).reverse.dropWhile isTrimWs).reverse⟩ : String) = ⟨cs⟩
  rw [dropWhile_of_all_false _ _ h,
    dropWhile_of_all_false _ _ (fun a ha => h a (List.mem_reverse.mp ha)),
    List.reverse_reverse]

theorem splitSeg_space_cons (cs : List Char) : splitSeg (' ' :: cs) = [] :: splitSeg cs := by
  simp [splitSeg]

theorem splitSeg_cons_of_ne (c : Char) (hc : c ≠ ' ') (cs s0 : List Char)
    (ss : List (List Char)) (h : splitSeg cs = s0 :: ss) :
    splitSeg (c :: cs) = (c :: s0) :: ss := by
  simp only [splitSeg]
  rw [if_neg hc, h]

theorem splitSeg_field (f : List Char) (hf : ∀ c ∈ f, c ≠ ' ') (cs s0 : List Char)
    (ss : List (List Char)) (h : splitSeg cs = s0 :: ss) :
    splitSeg (f ++ cs) = (f ++ s0) :: ss := by
  induction f with
  | nil => simpa using h
  | cons c f ih =>
    rw [List.cons_append,
      splitSeg_cons_of_ne c (hf c (List.mem_cons_self c f)) _ _ _
        (ih (fun b hb => hf b (List.mem_cons_of_mem c hb)))]
    rfl

theorem tokChars_nil : tokChars [] = [] := rfl

theorem tokChars_space_cons (cs : List Char) : tokChars (' ' :: cs) = tokChars cs := by
  unfold tokChars
  rw [splitSeg_space_cons, List.map_cons, List.filter_cons]
  simp [show trim ⟨([] : List Char)⟩ = "" from rfl]

theorem tokChars_replicate (a : Nat) (cs : List Char) :
    tokChars (List.replicate a ' ' ++ cs) = tokChars cs := by
  induction a with
  | zero => simp
  | succ a ih => rw [List.replicate_succ, List.cons_append, tokChars_space_cons, ih]

theorem tokChars_field_cons (f cs : List Char) (hne : f ≠ [])
    (hclean : ∀ c ∈ f, isTrimWs c = false)
    (hsep : cs = [] ∨ ∃ cs2, cs = ' ' :: cs2) :
    tokChars (f ++ cs) = (⟨f⟩ : String) :: tokChars cs := by
  have hnosp : ∀ c ∈ f, c ≠ ' ' := by
    intro c hc he
    subst he
    exact absurd (hclean ' ' hc) (by decide)
  have hftrim : trim ⟨f⟩ = ⟨f⟩ := trim_mk_of_clean f hclean
  have hfne : (⟨f⟩ : String) ≠ "" := by
    intro he
    exact hne (congrArg String.data he)
  rcases hsep with rfl | ⟨cs2, rfl⟩
  · rw [List.append_nil, tokChars_nil]
    have h1 : splitSeg (f ++ []) = [f ++ []] := splitSeg_field f hnosp [] [] [] rfl
    rw [List.append_nil] at h1
    unfold tokChars
    rw [h1, List.map_cons, List.map_nil, hftrim, List.filter_cons]
    simp [hfne]
  · have h1 : splitSeg (' ' :: cs2) = [] :: splitSeg cs2 := splitSeg_space_cons cs2
    have h2 : splitSeg (f ++ ' ' :: cs2) = (f ++ []) :: splitSeg cs2 :=
      splitSeg_field f hnosp _ _ _ h1
    rw [List.append_nil] at h2
    rw [show tokChars (' ' :: cs2) = tokChars cs2 from tokChars_space_cons cs2]
    unfold tokChars
    rw [h2, List.map_cons, hftrim, List.filter_cons]
    simp [hfne]

theorem padField_split (w : Nat) (f cs : List Char) :
    padField w f ++ cs = List.replicate (w - f.length) ' ' ++ (f ++ cs) := by
  unfold padField
  rw [List.append_assoc]

theorem tokChars_padField (w : Nat) (f cs : List Char) (hne : f ≠ [])
    (hclean : ∀ c ∈ f, isTrimWs c = false)
    (hsep : cs = [] ∨ ∃ cs2, cs = ' ' :: cs2) :
    tokChars (padField w f ++ cs) = (⟨f⟩ : String) :: tokChars cs := by
  rw [padField_split, tokChars_replicate, tokChars_field_cons f cs hne hclean hsep]

theorem padField_head_space (w : Nat) (f : List Char) (h : f.length < w) (cs : List Char) :
    ∃ cs2, padField w f ++ cs = ' ' :: cs2 := by
  unfold padField
  cases hw : w - f.length with
  | zero => omega
  | succ k =>
    rw [List.replicate_succ]
    exact ⟨List.replicate k ' ' ++ f ++ cs, by simp⟩

theorem emitFields_nil : emitFields [] = [] := rfl

theorem emitFields_cons (p : Nat × List Char) (fs : List (Nat × List Char)) :
    emitFields (p :: fs) = padField p.1 p.2 ++ emitFields fs := rfl

theorem padField_mem (w : Nat) (f : List Char) (h : ∀ c ∈ f, c ∈ tokenList) :
    ∀ c ∈ padField w f, c ∈ lineList := by
  intro c hc
  rw [padField, List.mem_append] at hc
  rcases hc with hc | hc
  · rw [List.eq_of_mem_replicate hc]
    exact List.mem_cons_self _ _
  · exact token_sub_line c (h c hc)

theorem emitFields_mem (fs : List (Nat × List Char))
    (h : ∀ p ∈ fs, ∀ c ∈ p.2, c ∈ tokenList) :
    ∀ c ∈ emitFields fs, c ∈ lineList := by
  induction fs with
  | nil =>
    intro c hc
    rw [emitFields_nil] at hc
    exact absurd hc (List.not_mem_nil c)
  | cons p fs ih =>
    intro c hc
    rw [emitFields_cons, List.mem_append] at hc
    rcases hc with hc | hc
    · exact padField_mem p.1 p.2 (h p (List.mem_cons_self p fs)) c hc
    · exact ih (fun q hq => h q (List.mem_cons_of_mem p hq)) c hc

/-! ### Classification of a written line -/

theorem trim_append_head (c0 : Char) (rest : List Char) (h : isTrimWs c0 = false) :
    ∃ t, (trim ⟨c0 :: rest⟩).toList = c0 :: t := by
  show ∃ t, (((c0 :: rest).dropWhile isTrimWs).reverse.dropWhile isTrimWs).reverse = c0 :: t
  rw [List.dropWhile_cons, h]
  simp only [Bool.false_eq_true, if_false]
  refine ⟨(rest.reverse.dropWhile isTrimWs).reverse, ?_⟩
  rw [List.reverse_cons, dropWhile_append_last _ _ _ h, List.reverse_append]
  simp

theorem lineSkipped_head_false (c0 : Char) (rest : List Char)
    (h0 : isTrimWs c0 = false) (hh : c0 ≠ '#' ∧ c0 ≠ 'C' ∧ c0 ≠ 'c') :
    (isEmptyLine ⟨c0 :: rest⟩ || isComment ⟨c0 :: rest⟩) = false := by
  obtain ⟨t, ht⟩ := trim_append_head c0 rest h0
  have he : isEmptyLine ⟨c0 :: rest⟩ = false := by
    unfold isEmptyLine
    apply decide_eq_false
    intro h2
    rw [h2] at ht
    simp at ht
  have hc : isComment ⟨c0 :: rest⟩ = false := by
    unfold isComment
    rw [ht]
    show (decide (c0 = '#') || decide (c0 = 'C') || decide (c0 = 'c')) = false
    rw [decide_eq_false hh.1, decide_eq_false hh.2.1, decide_eq_false hh.2.2]
    rfl
  rw [he, hc]
  rfl

theorem trim_mk_replicate (a : Nat) (cs : List Char) :
    trim ⟨List.replicate a ' ' ++ cs⟩ = trim ⟨cs⟩ := by
  have h1 : List.dropWhile isTrimWs (List.replicate a ' ' ++ cs)
      = List.dropWhile isTrimWs cs := by
    induction a with
    | zero => simp
    | succ a ih =>
      rw [List.replicate_succ, List.cons_append, List.dropWhile_cons,
        show isTrimWs ' ' = true from rfl]
      simpa using ih
  unfold trim
  show (⟨((List.dropWhile isTrimWs (List.replicate a ' ' ++ cs)).reverse.dropWhile
    isTrimWs).reverse⟩ : String) = _
  rw [h1]
  rfl

theorem lineSkipped_padded_false (a : Nat) (c0 : Char) (rest : List Char)
    (h0 : isTrimWs c0 = false) (hh : c0 ≠ '#' ∧ c0 ≠ 'C' ∧ c0 ≠ 'c') :
    (isEmptyLine ⟨List.replicate a ' ' ++ c0 :: rest⟩
      || isComment ⟨List.replicate a ' ' ++ c0 :: rest⟩) = false := by
  have ht := trim_mk_replicate a (c0 :: rest)
  have h1 : isEmptyLine ⟨List.replicate a ' ' ++ c0 :: rest⟩ = isEmptyLine ⟨c0 :: rest⟩ := by
    unfold isEmptyLine
    rw [ht]
  have h2 : isComment ⟨List.replicate a ' ' ++ c0 :: rest⟩ = isComment ⟨c0 :: rest⟩ := by
    unfold isComment
    rw [ht]
  rw [h1, h2]
  exact lineSkipped_head_false c0 rest h0 hh

theorem lineSkipped_padField_false (w : Nat) (f tail : List Char)
    (hne : f ≠ []) (hmem : ∀ c ∈ f, c ∈ tokenList) :
    (isEmptyLine ⟨padField w f ++ tail⟩ || isComment ⟨padField w f ++ tail⟩) = false := by
  cases f with
  | nil => exact absurd rfl hne
  | cons c0 f2 =>
    have hc0 := token_class c0 (hmem c0 (List.mem_cons_self _ _))
    have hsh : padField w (c0 :: f2) ++ tail
        = List.replicate (w - (c0 :: f2).length) ' ' ++ (c0 :: (f2 ++ tail)) := by
      unfold padField
      simp [List.append_assoc]
    rw [hsh]
    exact lineSkipped_padded_false _ c0 _ hc0.1 ⟨hc0.2.2.1, hc0.2.2.2.1, hc0.2.2.2.2⟩

theorem strContainsSub_mem (s pat : String) (h : strContainsSub s pat = true) :
    ∀ c ∈ pat.toList, c ∈ s.toList := by
  unfold strContainsSub at h
  rw [List.any_eq_true] at h
  obtain ⟨t, htails, hpre⟩ := h
  intro c hc
  have hsfx : t <:+ s.toList := (List.mem_tails t s.toList).mp htails
  have hpfx : pat.toList <+: t := List.isPrefixOf_iff_prefix.mp hpre
  exact hsfx.subset (hpfx.subset hc)

theorem determineSection_of_lineChars (cs : List Char) (h : ∀ c ∈ cs, c ∈ lineList) :
    determineSection ⟨cs⟩ = ParseState.unknown := by
  have hall : ∀ pat : String, '/' ∈ pat.toList → strContainsSub (upperStr ⟨cs⟩) pat = false := by
    intro pat hp
    cases hb : strContainsSub (upperStr ⟨cs⟩) pat with
    | false => rfl
    | true =>
      exfalso
      have hm := strContainsSub_mem _ _ hb '/' hp
      rw [show (upperStr ⟨cs⟩).toList = cs.map Char.toUpper from rfl, List.mem_map] at hm
      obtain ⟨c, hcm, hcu⟩ := hm
      exact line_upper c (h c hcm) hcu
  simp only [determineSection]
  rw [hall "/TITLE" (by decide), hall "/NODE" (by decide), hall "/CNODE" (by decide),
    hall "/BRICK" (by decide), hall "/HEXA" (by decide), hall "/TETRA4" (by decide),
    hall "/TETRA10" (by decide), hall "/SHELL" (by decide), hall "/SH3N" (by decide),
    hall "/QUAD" (by decide), hall "/TRIA" (by decide), hall "/MAT" (by decide),
    hall "/PROP" (by decide), hall "/PART" (by decide), hall "/LOAD" (by decide),
    hall "/CLOAD" (by decide), hall "/PLOAD" (by decide), hall "/BCS" (by decide),
    hall "/SPC" (by decide), hall "/IMPVEL" (by decide)]
  simp

/-! ### The tokens and parse of each written record line -/

/-- The node the re-read reconstructs: same id, each coordinate the value
    of its emitted 7-significant-digit field. -/
def roundNode (nd : Node) : Node :=
  ⟨nd.id, ⟨sciVal nd.position.x, sciVal nd.position.y, sciVal nd.position.z⟩⟩

theorem sciChars_clean (q : ℚ) : ∀ c ∈ sciChars q, isTrimWs c = false :=
  fun c hc => (token_class c (sciChars_mem q c hc)).1

theorem intChars_clean (i : Int) : ∀ c ∈ intChars i, isTrimWs c = false :=
  fun c hc => (token_class c (intChars_mem i c hc)).1

theorem tokChars_sciFields (vals : List ℚ)
    (hfit : ∀ q ∈ vals, (sciChars q).length < 20) :
    tokChars ((vals.map (fun q => padField 20 (sciChars q))).join)
      = vals.map (fun q => (⟨sciChars q⟩ : String)) := by
  induction vals with
  | nil => exact tokChars_nil
  | cons v vs ih =>
    rw [show ((v :: vs).map (fun q => padField 20 (sciChars q))).join
      = padField 20 (sciChars v) ++ (vs.map (fun q => padField 20 (sciChars q))).join from rfl]
    have hsep : (vs.map (fun q => padField 20 (sciChars q))).join = [] ∨
        ∃ cs2, (vs.map (fun q => padField 20 (sciChars q))).join = ' ' :: cs2 := by
      cases vs with
      | nil => exact Or.inl rfl
      | cons v2 vs2 =>
        right
        rw [show ((v2 :: vs2).map (fun q => padField 20 (sciChars q))).join
          = padField 20 (sciChars v2)
            ++ (vs2.map (fun q => padField 20 (sciChars q))).join from rfl]
        exact padField_head_space 20 _ (hfit v2 (List.mem_cons_of_mem v (List.mem_cons_self _ _)))
          _
    rw [tokChars_padField 20 _ _ (sciChars_ne_nil v) (sciChars_clean v) hsep,
      ih (fun q hq => hfit q (List.mem_cons_of_mem v hq))]
    rfl

theorem tokChars_intFields (ids : List Int)
    (hfit : ∀ n ∈ ids, (intChars n).length < 10) :
    tokChars ((ids.map (fun n => padField 10 (intChars n))).join)
      = ids.map (fun n => (⟨intChars n⟩ : String)) := by
  induction ids with
  | nil => exact tokChars_nil
  | cons v vs ih =>
    rw [show ((v :: vs).map (fun n => padField 10 (intChars n))).join
      = padField 10 (intChars v) ++ (vs.map (fun n => padField 10 (intChars n))).join from rfl]
    have hsep : (vs.map (fun n => padField 10 (intChars n))).join = [] ∨
        ∃ cs2, (vs.map (fun n => padField 10 (intChars n))).join = ' ' :: cs2 := by
      cases vs with
      | nil => exact Or.inl rfl
      | cons v2 vs2 =>
        right
        rw [show ((v2 :: vs2).map (fun n => padField 10 (intChars n))).join
          = padField 10 (intChars v2)
            ++ (vs2.map (fun n => padField 10 (intChars n))).join from rfl]
        exact padField_head_space 10 _ (hfit v2 (List.mem_cons_of_mem v (List.mem_cons_self _ _)))
          _
    rw [tokChars_padField 10 _ _ (intChars_ne_nil v) (intChars_clean v) hsep,
      ih (fun n hn => hfit n (List.mem_cons_of_mem v hn))]
    rfl

theorem tokens_nodeLine (nd : Node)
    (hx : (sciChars nd.position.x).length < 20) (hy : (sciChars nd.position.y).length < 20)
    (hz : (sciChars nd.position.z).length < 20) :
    tokenizeLine ⟨nodeLineChars nd⟩
      = [⟨intChars nd.id⟩, ⟨sciChars nd.position.x⟩, ⟨sciChars nd.position.y⟩,
          ⟨sciChars nd.position.z⟩] := by
  rw [tokenizeLine_mk]
  rw [show nodeLineChars nd = padField 10 (intChars nd.id) ++
      ([nd.position.x, nd.position.y, nd.position.z].map
        (fun q => padField 20 (sciChars q))).join from rfl]
  have hfit : ∀ q ∈ [nd.position.x, nd.position.y, nd.position.z],
      (sciChars q).length < 20 := by
    intro q hq
    simp only [List.mem_cons, List.not_mem_nil, or_false] at hq
    rcases hq with rfl | rfl | rfl
    · exact hx
    · exact hy
    · exact hz
  have hsep : ([nd.position.x, nd.position.y, nd.position.z].map
      (fun q => padField 20 (sciChars q))).join = [] ∨
      ∃ cs2, ([nd.position.x, nd.position.y, nd.position.z].map
        (fun q => padField 20 (sciChars q))).join = ' ' :: cs2 := by
    right
    rw [show ([nd.position.x, nd.position.y, nd.position.z].map
      (fun q => padField 20 (sciChars q))).join = padField 20 (sciChars nd.position.x)
        ++ ([nd.position.y, nd.position.z].map (fun q => padField 20 (sciChars q))).join
      from rfl]
    exact padField_head_space 20 _ hx _
  rw [tokChars_padField 10 _ _ (intChars_ne_nil _) (intChars_clean _) hsep,
    tokChars_sciFields _ hfit]
  rfl

theorem parseNode_emitted (nd : Node)
    (hx : (sciChars nd.position.x).length < 20) (hy : (sciChars nd.position.y).length < 20)
    (hz : (sciChars nd.position.z).length < 20) :
    parseNodeLine ⟨nodeLineChars nd⟩ = some (roundNode nd) := by
  unfold parseNodeLine
  rw [tokens_nodeLine nd hx hy hz]
  simp only [parseNodeTokens]
  rw [stoiOpt_intChars, stofOpt_sciChars, stofOpt_sciChars, stofOpt_sciChars]
  rfl

theorem stoiAll_intChars (nids : List Int) :
    stoiAll (nids.map (fun n => (⟨intChars n⟩ : String))) = some nids := by
  induction nids with
  | nil => rfl
  | cons n ns ih =>
    rw [List.map_cons]
    simp only [stoiAll]
    rw [stoiOpt_intChars, ih]
    rfl

theorem tokens_elemLine (e : Element)
    (hm : (intChars e.materialId).length < 10) (hp : (intChars e.propertyId).length < 10)
    (hn : ∀ n ∈ e.nodeIds, (intChars n).length < 10) :
    tokenizeLine ⟨elemLineChars e⟩ = ⟨intChars e.id⟩ :: ⟨intChars e.materialId⟩ ::
      ⟨intChars e.propertyId⟩ :: e.nodeIds.map (fun n => (⟨intChars n⟩ : String)) := by
  rw [tokenizeLine_mk]
  have hsh : elemLineChars e = padField 10 (intChars e.id) ++
      ((e.materialId :: e.propertyId :: e.nodeIds).map
        (fun n => padField 10 (intChars n))).join := by
    unfold elemLineChars emitFields
    simp [List.map_map, Function.comp_def]
  rw [hsh]
  have hfit : ∀ n ∈ e.materialId :: e.propertyId :: e.nodeIds, (intChars n).length < 10 := by
    intro n hmem
    rcases List.mem_cons.mp hmem with rfl | hmem
    · exact hm
    rcases List.mem_cons.mp hmem with rfl | hmem
    · exact hp
    · exact hn n hmem
  have hsep : ((e.materialId :: e.propertyId :: e.nodeIds).map
      (fun n => padField 10 (intChars n))).join = [] ∨
      ∃ cs2, ((e.materialId :: e.propertyId :: e.nodeIds).map
        (fun n => padField 10 (intChars n))).join = ' ' :: cs2 := by
    right
    rw [show ((e.materialId :: e.propertyId :: e.nodeIds).map
      (fun n => padField 10 (intChars n))).join = padField 10 (intChars e.materialId)
        ++ ((e.propertyId :: e.nodeIds).map (fun n => padField 10 (intChars n))).join from rfl]
    exact padField_head_space 10 _ hm _
  rw [tokChars_padField 10 _ _ (intChars_ne_nil _) (intChars_clean _) hsep,
    tokChars_intFields _ hfit]
  rfl

theorem parseElement_emitted (e : Element)
    (hm : (intChars e.materialId).length < 10) (hp : (intChars e.propertyId).length < 10)
    (hn : ∀ n ∈ e.nodeIds, (intChars n).length < 10) :
    ∃ e2, parseElementLine ⟨elemLineChars e⟩ = some e2 := by
  unfold parseElementLine
  rw [tokens_elemLine e hm hp hn]
  simp only [parseElementTokens, stoiOpt_intChars, stoiAll_intChars, Option.bind]
  split
  · exact ⟨_, rfl⟩
  · exact ⟨_, rfl⟩

/-! ### The material data line -/

theorem length_insertByName (p : String × ℚ) (l : List (String × ℚ)) :
    (insertByName p l).length = l.length + 1 := by
  induction l with
  | nil => rfl
  | cons q rest ih =>
    rw [insertByName]
    split
    · simp
    · simp [ih]

theorem sortByName_ne_nil (l : List (String × ℚ)) (h : l ≠ []) : sortByName l ≠ [] := by
  cases l with
  | nil => exact absurd rfl h
  | cons p rest =>
    rw [sortByName]
    intro he
    have := length_insertByName p (sortByName rest)
    rw [he] at this
    simp at this

theorem mem_insertByName (x p : String × ℚ) (l : List (String × ℚ))
    (h : x ∈ insertByName p l) : x = p ∨ x ∈ l := by
  induction l with
  | nil =>
    rw [insertByName] at h
    exact Or.inl (List.mem_singleton.mp h)
  | cons q rest ih =>
    rw [insertByName] at h
    split at h
    · rcases List.mem_cons.mp h with rfl | h
      · exact Or.inl rfl
      · exact Or.inr h
    · rcases List.mem_cons.mp h with rfl | h
      · exact Or.inr (List.mem_cons_self _ _)
      · rcases ih h with rfl | h
        · exact Or.inl rfl
        · exact Or.inr (List.mem_cons_of_mem q h)

theorem mem_sortByName (x : String × ℚ) (l : List (String × ℚ))
    (h : x ∈ sortByName l) : x ∈ l := by
  induction l with
  | nil => simpa [sortByName] using h
  | cons p rest ih =>
    rw [sortByName] at h
    rcases mem_insertByName x p _ h with rfl | h
    · exact List.mem_cons_self _ _
    · exact List.mem_cons_of_mem p (ih h)

theorem tokens_matDataLine (mt : Material) (hneb : mt.properties ≠ [])
    (hfit : ∀ p ∈ mt.properties, (sciChars p.2).length < 20) :
    tokenizeLine ⟨matDataChars mt⟩ = ⟨intChars mt.id⟩ ::
      (sortByName mt.properties).map (fun p => (⟨sciChars p.2⟩ : String)) := by
  rw [tokenizeLine_mk]
  have hfit2 : ∀ q ∈ (sortByName mt.properties).map Prod.snd, (sciChars q).length < 20 := by
    intro q hq
    rw [List.mem_map] at hq
    obtain ⟨p, hp, rfl⟩ := hq
    exact hfit p (mem_sortByName p _ hp)
  have hsh : matDataChars mt = padField 10 (intChars mt.id) ++
      (((sortByName mt.properties).map Prod.snd).map
        (fun q => padField 20 (sciChars q))).join := by
    unfold matDataChars emitFields
    simp [List.map_map, Function.comp_def]
  rw [hsh]
  have hsep : (((sortByName mt.properties).map Prod.snd).map
      (fun q => padField 20 (sciChars q))).join = [] ∨
      ∃ cs2, (((sortByName mt.properties).map Prod.snd).map
        (fun q => padField 20 (sciChars q))).join = ' ' :: cs2 := by
    cases hsn : sortByName mt.properties with
    | nil => exact absurd hsn (sortByName_ne_nil _ hneb)
    | cons p ps =>
      right
      rw [List.map_cons]
      rw [show ((p.2 :: ps.map Prod.snd).map (fun q => padField 20 (sciChars q))).join
        = padField 20 (sciChars p.2)
          ++ ((ps.map Prod.snd).map (fun q => padField 20 (sciChars q))).join from rfl]
      refine padField_head_space 20 _ (hfit2 p.2 ?_) _
      rw [hsn]
      exact List.mem_map_of_mem Prod.snd (List.mem_cons_self _ _)
  rw [tokChars_padField 10 _ _ (intChars_ne_nil _) (intChars_clean _) hsep,
    tokChars_sciFields _ hfit2, List.map_map]
  rfl

theorem readAttrPairs_total (ts : List String) (acc : List (String × ℚ))
    (h : ∀ t ∈ ts, (stofOpt t).isSome = true) :
    ∃ bag, readAttrPairs ts acc = some bag := by
  generalize hk : ts.length = k
  induction k using Nat.strong_induction_on generalizing ts acc with
  | _ k ih =>
    rcases ts with _ | ⟨t1, _ | ⟨t2, rest⟩⟩
    · exact ⟨acc, rfl⟩
    · exact ⟨acc, rfl⟩
    · have h2 := h t2 (List.mem_cons_of_mem t1 (List.mem_cons_self t2 rest))
      rw [Option.isSome_iff_exists] at h2
      obtain ⟨q, hq⟩ := h2
      simp only [readAttrPairs]
      rw [hq]
      refine ih rest.length ?_ rest (mapInsert acc t1 q)
        (fun t ht => h t (List.mem_cons_of_mem t1 (List.mem_cons_of_mem t2 ht))) rfl
      simp at hk
      omega

theorem parseMaterial_emitted (mt : Material) (hneb : mt.properties ≠ [])
    (hfit : ∀ p ∈ mt.properties, (sciChars p.2).length < 20) :
    ∃ m2, parseMaterialLine ⟨matDataChars mt⟩ = some m2 := by
  unfold parseMaterialLine
  rw [tokens_matDataLine mt hneb hfit]
  cases hsn : sortByName mt.properties with
  | nil => exact absurd hsn (sortByName_ne_nil _ hneb)
  | cons p ps =>
    rw [List.map_cons]
    obtain ⟨bag, hbag⟩ := readAttrPairs_total (ps.map (fun p => (⟨sciChars p.2⟩ : String))) []
      (by
        intro t ht
        rw [List.mem_map] at ht
        obtain ⟨p2, _, rfl⟩ := ht
        rw [stofOpt_sciChars]
        rfl)
    simp only [stoiOpt_intChars, hbag, Option.bind]
    exact ⟨_, rfl⟩

/-! ### Running the read over slices of the written lines -/

/-- One slice of the `parseFile` loop: `none` when a line of the slice
    aborts the read, otherwise the section and state after the slice. -/
def segRun : ParseState → Nat → List String → RState → Option (ParseState × RState)
  | cur, _, [], st => some (cur, st)
  | cur, n, l :: rest, st =>
    if isEmptyLine l || isComment l then segRun cur (n + 1) rest st
    else
      let ns := determineSection l
      if ns ≠ ParseState.unknown then segRun ns (n + 1) rest st
      else
        match parseContent cur l st with
        | some st2 => segRun cur (n + 1) rest st2
        | none => none

theorem segRun_skip (cur : ParseState) (n : Nat) (l : String) (rest : List String)
    (st : RState) (h : (isEmptyLine l || isComment l) = true) :
    segRun cur n (l :: rest) st = segRun cur (n + 1) rest st := by
  rw [segRun, if_pos h]

theorem segRun_marker (cur : ParseState) (n : Nat) (l : String) (rest : List String)
    (st : RState) (hskip : (isEmptyLine l || isComment l) = false)
    (hsec : determineSection l ≠ ParseState.unknown) :
    segRun cur n (l :: rest) st = segRun (determineSection l) (n + 1) rest st := by
  rw [segRun, hskip]
  simp only [Bool.false_eq_true, if_false]
  rw [if_pos hsec]

theorem segRun_data (cur : ParseState) (n : Nat) (l : String) (rest : List String)
    (st : RState) (hskip : (isEmptyLine l || isComment l) = false)
    (hsec : determineSection l = ParseState.unknown) :
    segRun cur n (l :: rest) st =
      match parseContent cur l st with
      | some st2 => segRun cur (n + 1) rest st2
      | none => none := by
  conv_lhs => rw [segRun]
  simp only [hskip, Bool.false_eq_true, if_false, hsec, ne_eq, not_true_eq_false]

theorem parseFileLoop_skip (cur : ParseState) (n : Nat) (l : String) (rest : List String)
    (st : RState) (h : (isEmptyLine l || isComment l) = true) :
    parseFileLoop cur n (l :: rest) st = parseFileLoop cur (n + 1) rest st := by
  conv_lhs => rw [parseFileLoop]
  rw [if_pos h]

theorem parseFileLoop_marker (cur : ParseState) (n : Nat) (l : String) (rest : List String)
    (st : RState) (hskip : (isEmptyLine l || isComment l) = false)
    (hsec : determineSection l ≠ ParseState.unknown) :
    parseFileLoop cur n (l :: rest) st = parseFileLoop (determineSection l) (n + 1) rest st := by
  conv_lhs => rw [parseFileLoop]
  simp only [hskip, Bool.false_eq_true, if_false]
  rw [if_pos hsec]

theorem parseFileLoop_data (cur : ParseState) (n : Nat) (l : String) (rest : List String)
    (st : RState) (hskip : (isEmptyLine l || isComment l) = false)
    (hsec : determineSection l = ParseState.unknown) :
    parseFileLoop cur n (l :: rest) st =
      match parseContent cur l st with
      | some st2 => parseFileLoop cur (n + 1) rest st2
      | none =>
        (false, setError ("Parse error at line " ++ toString (n + 1) ++ ": " ++ l) st) := by
  conv_lhs => rw [parseFileLoop]
  simp only [hskip, Bool.false_eq_true, if_false, hsec, ne_eq, not_true_eq_false]

theorem segRun_append (xs : List String) (cur : ParseState) (n : Nat) (ys : List String)
    (st : RState) (c2 : ParseState) (st2 : RState)
    (h : segRun cur n xs st = some (c2, st2)) :
    segRun cur n (xs ++ ys) st = segRun c2 (n + xs.length) ys st2 := by
  induction xs generalizing cur n st with
  | nil =>
    rw [segRun] at h
    simp only [Option.some.injEq, Prod.mk.injEq] at h
    obtain ⟨rfl, rfl⟩ := h
    simp
  | cons l rest ih =>
    rw [List.cons_append]
    have harith : n + 1 + rest.length = n + (l :: rest).length := by
      simp only [List.length_cons]
      omega
    by_cases hskip : (isEmptyLine l || isComment l) = true
    · rw [segRun_skip _ _ _ _ _ hskip] at h
      rw [segRun_skip _ _ _ _ _ hskip, ih _ _ _ h, harith]
    · rw [Bool.not_eq_true] at hskip
      by_cases hsec : determineSection l ≠ ParseState.unknown
      · rw [segRun_marker _ _ _ _ _ hskip hsec] at h
        rw [segRun_marker _ _ _ _ _ hskip hsec, ih _ _ _ h, harith]
      · rw [not_not] at hsec
        rw [segRun_data _ _ _ _ _ hskip hsec] at h
        rw [segRun_data _ _ _ _ _ hskip hsec]
        cases hpc : parseContent cur l st with
        | some st3 =>
          rw [hpc] at h
          show segRun cur (n + 1) (rest ++ ys) st3 = _
          rw [ih _ _ _ h, harith]
        | none =>
          rw [hpc] at h
          exact Option.noConfusion h

theorem parseFileLoop_append (xs : List String) (cur : ParseState) (n : Nat)
    (ys : List String) (st : RState) (c2 : ParseState) (st2 : RState)
    (h : segRun cur n xs st = some (c2, st2)) :
    parseFileLoop cur n (xs ++ ys) st = parseFileLoop c2 (n + xs.length) ys st2 := by
  induction xs generalizing cur n st with
  | nil =>
    rw [segRun] at h
    simp only [Option.some.injEq, Prod.mk.injEq] at h
    obtain ⟨rfl, rfl⟩ := h
    simp
  | cons l rest ih =>
    rw [List.cons_append]
    have harith : n + 1 + rest.length = n + (l :: rest).length := by
      simp only [List.length_cons]
      omega
    by_cases hskip : (isEmptyLine l || isComment l) = true
    · rw [segRun_skip _ _ _ _ _ hskip] at h
      rw [parseFileLoop_skip _ _ _ _ _ hskip, ih _ _ _ h, harith]
    · rw [Bool.not_eq_true] at hskip
      by_cases hsec : determineSection l ≠ ParseState.unknown
      · rw [segRun_marker _ _ _ _ _ hskip hsec] at h
        rw [parseFileLoop_marker _ _ _ _ _ hskip hsec, ih _ _ _ h, harith]
      · rw [not_not] at hsec
        rw [segRun_data _ _ _ _ _ hskip hsec] at h
        rw [parseFileLoop_data _ _ _ _ _ hskip hsec]
        cases hpc : parseContent cur l st with
        | some st3 =>
          rw [hpc] at h
          show parseFileLoop cur (n + 1) (rest ++ ys) st3 = _
          rw [ih _ _ _ h, harith]
        | none =>
          rw [hpc] at h
          exact Option.noConfusion h

/-! ### The tail sections cannot touch the node, element or material lists -/

/-- The three collections the round-trip statement tracks. -/
def nemOf (st : RState) : List Node × List Element × List Material :=
  (st.nodes, st.elements, st.materials)

theorem parseContent_tail_nem (cur : ParseState) (l : String) (st st2 : RState)
    (hcur : cur = ParseState.properties ∨ cur = ParseState.loads
      ∨ cur = ParseState.boundaryConditions)
    (h : parseContent cur l st = some st2) : nemOf st2 = nemOf st := by
  rcases hcur with rfl | rfl | rfl
  · simp only [parseContent] at h
    cases hpl : parsePropertyLine l with
    | some p =>
      rw [hpl] at h
      have h2 : ({ st with properties := st.properties ++ [p] } : RState) = st2 :=
        Option.some.inj h
      rw [← h2]
      rfl
    | none =>
      rw [hpl] at h
      exact Option.noConfusion h
  · simp only [parseContent] at h
    cases hpl : parseLoadCaseLine l with
    | some lc =>
      rw [hpl] at h
      have h2 : ({ st with loadCases := st.loadCases ++ [lc] } : RState) = st2 :=
        Option.some.inj h
      rw [← h2]
      rfl
    | none =>
      rw [hpl] at h
      exact Option.noConfusion h
  · simp only [parseContent] at h
    cases hpl : parseBoundaryConditionLine l with
    | some bc =>
      rw [hpl] at h
      have h2 : ({ st with boundaryConditions := st.boundaryConditions ++ [bc] } : RState) = st2 :=
        Option.some.inj h
      rw [← h2]
      rfl
    | none =>
      rw [hpl] at h
      exact Option.noConfusion h

theorem tail_preserves (lines : List String) (cur : ParseState) (n : Nat) (st : RState)
    (hcur : cur = ParseState.properties ∨ cur = ParseState.loads
      ∨ cur = ParseState.boundaryConditions)
    (hl : ∀ l ∈ lines, determineSection l = ParseState.unknown
      ∨ determineSection l = ParseState.properties ∨ determineSection l = ParseState.loads
      ∨ determineSection l = ParseState.boundaryConditions) :
    nemOf (parseFileLoop cur n lines st).2 = nemOf st := by
  induction lines generalizing cur n st with
  | nil => rfl
  | cons l rest ih =>
    by_cases hskip : (isEmptyLine l || isComment l) = true
    · rw [parseFileLoop_skip _ _ _ _ _ hskip]
      exact ih cur (n + 1) st hcur (fun x hx => hl x (List.mem_cons_of_mem l hx))
    · rw [Bool.not_eq_true] at hskip
      rcases hl l (List.mem_cons_self l rest) with hd | hd | hd | hd
      · rw [parseFileLoop_data _ _ _ _ _ hskip hd]
        cases hpc : parseContent cur l st with
        | some st3 =>
          show nemOf (parseFileLoop cur (n + 1) rest st3).2 = nemOf st
          rw [ih cur (n + 1) st3 hcur (fun x hx => hl x (List.mem_cons_of_mem l hx))]
          exact parseContent_tail_nem cur l st st3 hcur hpc
        | none => rfl
      · rw [parseFileLoop_marker _ _ _ _ _ hskip (by rw [hd]; decide), hd]
        exact ih _ (n + 1) st (Or.inl rfl) (fun x hx => hl x (List.mem_cons_of_mem l hx))
      · rw [parseFileLoop_marker _ _ _ _ _ hskip (by rw [hd]; decide), hd]
        exact ih _ (n + 1) st (Or.inr (Or.inl rfl)) (fun x hx => hl x (List.mem_cons_of_mem l hx))
      · rw [parseFileLoop_marker _ _ _ _ _ hskip (by rw [hd]; decide), hd]
        exact ih _ (n + 1) st (Or.inr (Or.inr rfl)) (fun x hx => hl x (List.mem_cons_of_mem l hx))

theorem tail_blocks (blocks : List (String × String)) (cur : ParseState) (n : Nat) (st : RState)
    (hb : ∀ b ∈ blocks, (isEmptyLine b.1 || isComment b.1) = false ∧
      (determineSection b.1 = ParseState.properties ∨ determineSection b.1 = ParseState.loads
        ∨ determineSection b.1 = ParseState.boundaryConditions) ∧
      (determineSection b.2 = ParseState.unknown
        ∨ determineSection b.2 = ParseState.properties
        ∨ determineSection b.2 = ParseState.loads
        ∨ determineSection b.2 = ParseState.boundaryConditions)) :
    nemOf (parseFileLoop cur n ((blocks.map (fun b => [b.1, b.2])).join) st).2 = nemOf st := by
  cases blocks with
  | nil => rfl
  | cons b bs =>
    obtain ⟨hskip1, hhd, hdata⟩ := hb b (List.mem_cons_self b bs)
    rw [show ((b :: bs).map (fun b => [b.1, b.2])).join
      = b.1 :: b.2 :: (bs.map (fun b => [b.1, b.2])).join from rfl]
    have hne : determineSection b.1 ≠ ParseState.unknown := by
      rcases hhd with hd | hd | hd <;> rw [hd] <;> decide
    rw [parseFileLoop_marker _ _ _ _ _ hskip1 hne]
    apply tail_preserves _ _ _ _ hhd
    intro x hx
    rcases List.mem_cons.mp hx with rfl | hx
    · exact hdata
    · rw [List.mem_join] at hx
      obtain ⟨s, hs, hxs⟩ := hx
      rw [List.mem_map] at hs
      obtain ⟨b2, hb2, rfl⟩ := hs
      obtain ⟨_, hhd2, hdata2⟩ := hb b2 (List.mem_cons_of_mem b hb2)
      rcases List.mem_cons.mp hxs with rfl | hxs
      · rcases hhd2 with hd | hd | hd
        · exact Or.inr (Or.inl hd)
        · exact Or.inr (Or.inr (Or.inl hd))
        · exact Or.inr (Or.inr (Or.inr hd))
      · rw [List.mem_singleton] at hxs
        subst hxs
        exact hdata2

/-! ### Running the read over each written section -/

theorem segRun_header (m st0 : RState) (n : Nat) :
    ∃ c2 st2, segRun ParseState.header n (writeHeaderLines m) st0 = some (c2, st2) ∧
      nemOf st2 = nemOf st0 := by
  have h1 : (isEmptyLine "#RADIOSS STARTER" || isComment "#RADIOSS STARTER") = true := by decide
  have h2 : (isEmptyLine "/BEGIN" || isComment "/BEGIN") = false := by decide
  have h3 : determineSection "/BEGIN" = ParseState.unknown := by decide
  unfold writeHeaderLines
  by_cases ht : m.title = ""
  · rw [if_pos ht, List.append_nil]
    rw [segRun_skip _ _ _ _ _ h1, segRun_data _ _ _ _ _ h2 h3]
    exact ⟨ParseState.header, st0, rfl, rfl⟩
  · rw [if_neg ht]
    rw [show (["#RADIOSS STARTER", "/BEGIN"] ++ ["/TITLE", m.title] : List String)
      = "#RADIOSS STARTER" :: "/BEGIN" :: "/TITLE" :: [m.title] from rfl]
    rw [segRun_skip _ _ _ _ _ h1, segRun_data _ _ _ _ _ h2 h3]
    show ∃ c2 st2, segRun ParseState.header (n + 1 + 1) ("/TITLE" :: [m.title]) st0
      = some (c2, st2) ∧ nemOf st2 = nemOf st0
    have h4 : (isEmptyLine "/TITLE" || isComment "/TITLE") = false := by decide
    have h5 : determineSection "/TITLE" = ParseState.title := by decide
    have h6 : determineSection "/TITLE" ≠ ParseState.unknown := by decide
    rw [segRun_marker _ _ _ _ _ h4 h6, h5]
    by_cases hskip : (isEmptyLine m.title || isComment m.title) = true
    · rw [segRun_skip _ _ _ _ _ hskip]
      exact ⟨ParseState.title, st0, rfl, rfl⟩
    · rw [Bool.not_eq_true] at hskip
      by_cases hsec : determineSection m.title ≠ ParseState.unknown
      · rw [segRun_marker _ _ _ _ _ hskip hsec]
        exact ⟨determineSection m.title, st0, rfl, rfl⟩
      · rw [not_not] at hsec
        rw [segRun_data _ _ _ _ _ hskip hsec]
        refine ⟨ParseState.title, parseTitle m.title st0, rfl, ?_⟩
        unfold parseTitle
        split <;> rfl

theorem segRun_nodeData (nds : List Node) (st : RState) (n : Nat)
    (h : ∀ nd ∈ nds, (sciChars nd.position.x).length < 20 ∧
      (sciChars nd.position.y).length < 20 ∧ (sciChars nd.position.z).length < 20) :
    segRun ParseState.nodes n (nds.map fun nd => (⟨nodeLineChars nd⟩ : String)) st =
      some (ParseState.nodes, { st with nodes := st.nodes ++ nds.map roundNode }) := by
  induction nds generalizing st n with
  | nil =>
    rw [List.map_nil]
    show some (ParseState.nodes, st) = _
    rw [List.map_nil, List.append_nil]
  | cons nd rest ih =>
    obtain ⟨hx, hy, hz⟩ := h nd (List.mem_cons_self nd rest)
    rw [List.map_cons]
    have hclean : ∀ c ∈ nodeLineChars nd, c ∈ lineList := by
      unfold nodeLineChars
      apply emitFields_mem
      intro p hp
      simp only [List.mem_cons, List.not_mem_nil, or_false] at hp
      rcases hp with rfl | rfl | rfl | rfl
      · exact intChars_mem nd.id
      · exact sciChars_mem nd.position.x
      · exact sciChars_mem nd.position.y
      · exact sciChars_mem nd.position.z
    have hskip : (isEmptyLine ⟨nodeLineChars nd⟩ || isComment ⟨nodeLineChars nd⟩) = false := by
      rw [show nodeLineChars nd = padField 10 (intChars nd.id) ++ emitFields
        [(20, sciChars nd.position.x), (20, sciChars nd.position.y),
          (20, sciChars nd.position.z)] from rfl]
      exact lineSkipped_padField_false 10 _ _ (intChars_ne_nil _) (intChars_mem _)
    have hsec := determineSection_of_lineChars _ hclean
    rw [segRun_data _ _ _ _ _ hskip hsec]
    simp only [parseContent]
    rw [parseNode_emitted nd hx hy hz]
    show segRun ParseState.nodes (n + 1) (rest.map fun x => (⟨nodeLineChars x⟩ : String))
      { st with nodes := st.nodes ++ [roundNode nd] } = _
    rw [ih _ _ (fun x hx2 => h x (List.mem_cons_of_mem nd hx2))]
    rw [List.map_cons, List.append_assoc]
    rfl

theorem segRun_nodes (m st : RState) (n : Nat) (cur : ParseState)
    (h : ∀ nd ∈ m.nodes, (sciChars nd.position.x).length < 20 ∧
      (sciChars nd.position.y).length < 20 ∧ (sciChars nd.position.z).length < 20) :
    ∃ c2, segRun cur n (writeNodesLines m) st
      = some (c2, { st with nodes := st.nodes ++ m.nodes.map roundNode }) := by
  unfold writeNodesLines
  by_cases hemp : m.nodes.isEmpty = true
  · rw [if_pos hemp]
    rw [List.isEmpty_iff.mp hemp]
    exact ⟨cur, by show some (cur, st) = _; rw [List.map_nil, List.append_nil]⟩
  · rw [Bool.not_eq_true] at hemp
    rw [hemp]
    simp only [Bool.false_eq_true, if_false]
    have hs1 : (isEmptyLine "/NODE" || isComment "/NODE") = false := by decide
    have hs2 : determineSection "/NODE" = ParseState.nodes := by decide
    have hs3 : determineSection "/NODE" ≠ ParseState.unknown := by decide
    rw [segRun_marker _ _ _ _ _ hs1 hs3, hs2, segRun_nodeData m.nodes st (n + 1) h]
    exact ⟨ParseState.nodes, rfl⟩

theorem segRun_elemData (es : List Element) (st : RState) (n : Nat)
    (hfit : ∀ e ∈ es, (intChars e.materialId).length < 10
      ∧ (intChars e.propertyId).length < 10 ∧ ∀ nid ∈ e.nodeIds, (intChars nid).length < 10) :
    ∃ gs : List Element, gs.length = es.length ∧
      segRun ParseState.elements n (es.map fun e => (⟨elemLineChars e⟩ : String)) st =
        some (ParseState.elements, { st with elements := st.elements ++ gs }) := by
  induction es generalizing st n with
  | nil =>
    refine ⟨[], rfl, ?_⟩
    rw [List.map_nil]
    show some (ParseState.elements, st) = _
    rw [List.append_nil]
  | cons e rest ih =>
    obtain ⟨hm, hp, hn⟩ := hfit e (List.mem_cons_self e rest)
    obtain ⟨e2, he2⟩ := parseElement_emitted e hm hp hn
    rw [List.map_cons]
    have hclean : ∀ c ∈ elemLineChars e, c ∈ lineList := by
      unfold elemLineChars
      apply emitFields_mem
      intro p hp2
      rcases List.mem_cons.mp hp2 with rfl | hp2
      · exact intChars_mem e.id
      rcases List.mem_cons.mp hp2 with rfl | hp2
      · exact intChars_mem e.materialId
      rcases List.mem_cons.mp hp2 with rfl | hp2
      · exact intChars_mem e.propertyId
      · rw [List.mem_map] at hp2
        obtain ⟨nid, _, rfl⟩ := hp2
        exact intChars_mem nid
    have hskip : (isEmptyLine ⟨elemLineChars e⟩ || isComment ⟨elemLineChars e⟩) = false := by
      rw [show elemLineChars e = padField 10 (intChars e.id)
        ++ emitFields ((10, intChars e.materialId) :: (10, intChars e.propertyId)
          :: e.nodeIds.map (fun nid => (10, intChars nid))) from rfl]
      exact lineSkipped_padField_false 10 _ _ (intChars_ne_nil _) (intChars_mem _)
    have hsec := determineSection_of_lineChars _ hclean
    rw [segRun_data _ _ _ _ _ hskip hsec]
    simp only [parseContent]
    rw [he2]
    obtain ⟨gs, hlen, hrun⟩ := ih { st with elements := st.elements ++ [e2] } (n + 1)
      (fun x hx => hfit x (List.mem_cons_of_mem e hx))
    refine ⟨e2 :: gs, by simp [hlen], ?_⟩
    show segRun ParseState.elements (n + 1) (rest.map fun x => (⟨elemLineChars x⟩ : String))
      { st with elements := st.elements ++ [e2] } = _
    rw [hrun, List.append_assoc]
    rfl

theorem segRun_elemGroup (m : RState) (ty : EType) (st : RState) (n : Nat) (cur : ParseState)
    (hall : ∀ e ∈ m.elements, e.type = EType.TRIA3 ∨ e.type = EType.QUAD4
      ∨ e.type = EType.TETRA4 ∨ e.type = EType.HEXA8 ∨ e.type = EType.UNKNOWN)
    (hfit : ∀ e ∈ m.elements, (intChars e.materialId).length < 10
      ∧ (intChars e.propertyId).length < 10
      ∧ ∀ nid ∈ e.nodeIds, (intChars nid).length < 10) :
    ∃ c2 gs, gs.length = (m.elements.filter (fun e => e.type = ty)).length ∧
      segRun cur n (elemGroupLines m ty) st
        = some (c2, { st with elements := st.elements ++ gs }) := by
  simp only [elemGroupLines]
  by_cases hemp : (m.elements.filter (fun e => e.type = ty)).isEmpty = true
  · rw [if_pos hemp]
    refine ⟨cur, [], ?_, ?_⟩
    · rw [List.isEmpty_iff.mp hemp]
    · show some (cur, st) = _
      rw [List.append_nil]
  · rw [Bool.not_eq_true] at hemp
    rw [hemp]
    simp only [Bool.false_eq_true, if_false]
    have hex : ∃ e ∈ m.elements, e.type = ty := by
      rcases hfilter : m.elements.filter (fun e => e.type = ty) with _ | ⟨e0, g2⟩
      · rw [hfilter] at hemp
        simp at hemp
      · have hmem : e0 ∈ m.elements.filter (fun e => e.type = ty) := by
          rw [hfilter]
          exact List.mem_cons_self _ _
        rw [List.mem_filter] at hmem
        exact ⟨e0, hmem.1, by simpa using hmem.2⟩
    obtain ⟨e0, he0, hty⟩ := hex
    have hty5 := hall e0 he0
    rw [hty] at hty5
    have hhd : determineSection (elemHeader ty) = ParseState.elements := by
      rcases hty5 with rfl | rfl | rfl | rfl | rfl <;> decide
    have hhs : (isEmptyLine (elemHeader ty) || isComment (elemHeader ty)) = false := by
      rcases hty5 with rfl | rfl | rfl | rfl | rfl <;> decide
    have hhne : determineSection (elemHeader ty) ≠ ParseState.unknown := by
      rw [hhd]
      decide
    rw [segRun_marker _ _ _ _ _ hhs hhne, hhd]
    obtain ⟨gs, hlen, hrun⟩ := segRun_elemData (m.elements.filter (fun e => e.type = ty)) st
      (n + 1) (fun e he => hfit e (List.mem_filter.mp he).1)
    exact ⟨ParseState.elements, gs, hlen, hrun⟩

theorem segRun_elemGroupList (tys : List EType) (m : RState) (st : RState) (n : Nat)
    (cur : ParseState)
    (hall : ∀ e ∈ m.elements, e.type = EType.TRIA3 ∨ e.type = EType.QUAD4
      ∨ e.type = EType.TETRA4 ∨ e.type = EType.HEXA8 ∨ e.type = EType.UNKNOWN)
    (hfit : ∀ e ∈ m.elements, (intChars e.materialId).length < 10
      ∧ (intChars e.propertyId).length < 10
      ∧ ∀ nid ∈ e.nodeIds, (intChars nid).length < 10) :
    ∃ c2 gs, gs.length
        = ((tys.map (fun ty => (m.elements.filter (fun e => e.type = ty)).length)).sum) ∧
      segRun cur n ((tys.map (elemGroupLines m)).join) st
        = some (c2, { st with elements := st.elements ++ gs }) := by
  induction tys generalizing cur st n with
  | nil =>
    refine ⟨cur, [], rfl, ?_⟩
    show some (cur, st) = _
    rw [List.append_nil]
  | cons ty tys ih =>
    obtain ⟨c2, gs1, hlen1, hrun1⟩ := segRun_elemGroup m ty st n cur hall hfit
    rw [show ((ty :: tys).map (elemGroupLines m)).join
      = elemGroupLines m ty ++ (tys.map (elemGroupLines m)).join from rfl]
    rw [segRun_append _ _ _ _ _ _ _ hrun1]
    obtain ⟨c3, gs2, hlen2, hrun2⟩ := ih { st with elements := st.elements ++ gs1 }
      (n + (elemGroupLines m ty).length) c2
    rw [hrun2]
    refine ⟨c3, gs1 ++ gs2, ?_, ?_⟩
    · rw [List.length_append, hlen1, hlen2, List.map_cons, List.sum_cons]
    · show some (c3, { st with elements := (st.elements ++ gs1) ++ gs2 }) = _
      rw [List.append_assoc]

theorem sum_type_filter (es : List Element) :
    ((typeOrder.map (fun ty => (es.filter (fun e => e.type = ty)).length)).sum)
      = es.length := by
  induction es with
  | nil => rfl
  | cons e rest ih =>
    have hf : ∀ ty : EType, (List.filter (fun x => x.type = ty) (e :: rest)).length
        = (if e.type = ty then 1 else 0) + (rest.filter (fun x => x.type = ty)).length := by
      intro ty
      rw [List.filter_cons]
      by_cases hty : e.type = ty
      · rw [if_pos (by simpa using hty), if_pos hty, List.length_cons]
        omega
      · rw [if_neg (by simpa using hty), if_neg hty]
        omega
    simp only [typeOrder, List.map_cons, List.map_nil, List.sum_cons, List.sum_nil] at ih ⊢
    rw [hf, hf, hf, hf, hf, hf, hf, List.length_cons]
    cases e.type <;> simp <;> omega

theorem segRun_elements (m st : RState) (n : Nat) (cur : ParseState)
    (hall : ∀ e ∈ m.elements, e.type = EType.TRIA3 ∨ e.type = EType.QUAD4
      ∨ e.type = EType.TETRA4 ∨ e.type = EType.HEXA8 ∨ e.type = EType.UNKNOWN)
    (hfit : ∀ e ∈ m.elements, (intChars e.materialId).length < 10
      ∧ (intChars e.propertyId).length < 10
      ∧ ∀ nid ∈ e.nodeIds, (intChars nid).length < 10) :
    ∃ c2 gs, gs.length = m.elements.length ∧
      segRun cur n (writeElementsLines m) st
        = some (c2, { st with elements := st.elements ++ gs }) := by
  obtain ⟨c2, gs, hlen, hrun⟩ := segRun_elemGroupList typeOrder m st n cur hall hfit
  exact ⟨c2, gs, by rw [hlen, sum_type_filter], hrun⟩

theorem segRun_matList (ms : List Material) (st : RState) (n : Nat) (cur : ParseState)
    (hm : ∀ mt ∈ ms, mt.properties ≠ [] ∧ (∀ p ∈ mt.properties, (sciChars p.2).length < 20)
      ∧ determineSection ("/MAT/" ++ mt.type) = ParseState.materials) :
    ∃ c2 gs, gs.length = ms.length ∧
      segRun cur n ((ms.map matLines).join) st
        = some (c2, { st with materials := st.materials ++ gs }) := by
  induction ms generalizing cur st n with
  | nil =>
    refine ⟨cur, [], rfl, ?_⟩
    show some (cur, st) = _
    rw [List.append_nil]
  | cons mt rest ih =>
    obtain ⟨hneb, hfit, hroute⟩ := hm mt (List.mem_cons_self mt rest)
    rw [show ((mt :: rest).map matLines).join
      = ("/MAT/" ++ mt.type) :: (⟨matDataChars mt⟩ : String) :: (rest.map matLines).join
      from rfl]
    have hhs : (isEmptyLine ("/MAT/" ++ mt.type) || isComment ("/MAT/" ++ mt.type)) = false := by
      obtain ⟨l⟩ := mt.type
      show (isEmptyLine ⟨'/' :: ('M' :: 'A' :: 'T' :: '/' :: l)⟩
        || isComment ⟨'/' :: ('M' :: 'A' :: 'T' :: '/' :: l)⟩) = false
      exact lineSkipped_head_false '/' _ (by decide) ⟨by decide, by decide, by decide⟩
    have hhne : determineSection ("/MAT/" ++ mt.type) ≠ ParseState.unknown := by
      rw [hroute]
      decide
    rw [segRun_marker _ _ _ _ _ hhs hhne, hroute]
    obtain ⟨m2, hm2⟩ := parseMaterial_emitted mt hneb hfit
    have hclean : ∀ c ∈ matDataChars mt, c ∈ lineList := by
      unfold matDataChars
      apply emitFields_mem
      intro p hp2
      rcases List.mem_cons.mp hp2 with rfl | hp2
      · exact intChars_mem mt.id
      · rw [List.mem_map] at hp2
        obtain ⟨pp, _, rfl⟩ := hp2
        exact sciChars_mem pp.2
    have hskip2 : (isEmptyLine ⟨matDataChars mt⟩ || isComment ⟨matDataChars mt⟩) = false := by
      rw [show matDataChars mt = padField 10 (intChars mt.id)
        ++ emitFields ((sortByName mt.properties).map (fun p => (20, sciChars p.2))) from rfl]
      exact lineSkipped_padField_false 10 _ _ (intChars_ne_nil _) (intChars_mem _)
    have hsec2 := determineSection_of_lineChars _ hclean
    rw [segRun_data _ _ _ _ _ hskip2 hsec2]
    simp only [parseContent]
    rw [hm2]
    obtain ⟨c3, gs, hlen, hrun⟩ := ih { st with materials := st.materials ++ [m2] }
      (n + 1 + 1) ParseState.materials (fun x hx => hm x (List.mem_cons_of_mem mt hx))
    refine ⟨c3, m2 :: gs, by simp [hlen], ?_⟩
    show segRun ParseState.materials (n + 1 + 1) ((rest.map matLines).join)
      { st with materials := st.materials ++ [m2] } = _
    rw [hrun]
    show some (c3, { st with materials := (st.materials ++ [m2]) ++ gs }) = _
    rw [List.append_assoc]
    rfl

/-! ### The tail sections as two-line blocks -/

/-- The (marker, record) pairs of the three trailing writers. -/
def tailBlocksOf (m : RState) : List (String × String) :=
  m.properties.map (fun p => ("/PROP/" ++ p.type, (⟨propDataChars p⟩ : String)))
    ++ m.loadCases.map (fun lc => ("/CLOAD", (⟨loadDataChars lc⟩ : String)))
    ++ m.boundaryConditions.map (fun bc => ("/BCS", (⟨bcDataChars bc⟩ : String)))

theorem tail_lines_eq (m : RState) :
    writePropertiesLines m ++ writeLoadCasesLines m ++ writeBoundaryConditionsLines m
      = ((tailBlocksOf m).map (fun b => [b.1, b.2])).join := by
  unfold tailBlocksOf writePropertiesLines writeLoadCasesLines writeBoundaryConditionsLines
  simp only [List.map_append, List.map_map, Function.comp_def, List.append_assoc, List.join]
  rw [List.flatten_append, List.flatten_append]
  rfl

theorem propDataChars_mem (p : RProperty) : ∀ c ∈ propDataChars p, c ∈ lineList := by
  unfold propDataChars
  apply emitFields_mem
  intro q hq
  rcases List.mem_cons.mp hq with rfl | hq
  · exact intChars_mem p.id
  · rw [List.mem_map] at hq
    obtain ⟨pp, _, rfl⟩ := hq
    exact sciChars_mem pp.2

theorem loadDataChars_mem (lc : LoadCase) : ∀ c ∈ loadDataChars lc, c ∈ lineList := by
  unfold loadDataChars
  apply emitFields_mem
  intro q hq
  rcases List.mem_cons.mp hq with rfl | hq
  · exact intChars_mem lc.id
  rcases List.mem_cons.mp hq with rfl | hq
  · exact sciChars_mem lc.magnitude
  rcases List.mem_cons.mp hq with rfl | hq
  · exact sciChars_mem lc.vector.x
  rcases List.mem_cons.mp hq with rfl | hq
  · exact sciChars_mem lc.vector.y
  rcases List.mem_cons.mp hq with rfl | hq
  · exact sciChars_mem lc.vector.z
  · rw [List.mem_map] at hq
    obtain ⟨nid, _, rfl⟩ := hq
    exact intChars_mem nid

theorem bcDataChars_mem (bc : BoundaryCondition) : ∀ c ∈ bcDataChars bc, c ∈ lineList := by
  unfold bcDataChars
  intro c hc
  rw [List.mem_append] at hc
  rcases hc with hc | hc
  · rw [List.mem_append] at hc
    rcases hc with hc | hc
    · rw [List.mem_append] at hc
      rcases hc with hc | hc
      · exact padField_mem 10 _ (intChars_mem _) c hc
      · rw [List.mem_join] at hc
        obtain ⟨s, hs, hcs⟩ := hc
        rw [List.mem_map] at hs
        obtain ⟨d, _, rfl⟩ := hs
        exact token_sub_line c (intChars_mem d c hcs)
    · rw [List.eq_of_mem_replicate hc]
      exact List.mem_cons_self _ _
  · rw [List.mem_join] at hc
    obtain ⟨s, hs, hcs⟩ := hc
    rw [List.mem_map] at hs
    obtain ⟨nid, _, rfl⟩ := hs
    exact padField_mem 10 _ (intChars_mem _) c hcs

theorem tailBlocks_hyps (m : RState)
    (hprops : ∀ p ∈ m.properties,
      determineSection ("/PROP/" ++ p.type) = ParseState.properties) :
    ∀ b ∈ tailBlocksOf m, (isEmptyLine b.1 || isComment b.1) = false ∧
      (determineSection b.1 = ParseState.properties ∨ determineSection b.1 = ParseState.loads
        ∨ determineSection b.1 = ParseState.boundaryConditions) ∧
      (determineSection b.2 = ParseState.unknown
        ∨ determineSection b.2 = ParseState.properties
        ∨ determineSection b.2 = ParseState.loads
        ∨ determineSection b.2 = ParseState.boundaryConditions) := by
  intro b hb
  unfold tailBlocksOf at hb
  rw [List.mem_append] at hb
  rcases hb with hb | hb
  · rw [List.mem_append] at hb
    rcases hb with hb | hb
    · rw [List.mem_map] at hb
      obtain ⟨p, hp, rfl⟩ := hb
      refine ⟨?_, Or.inl (hprops p hp),
        Or.inl (determineSection_of_lineChars _ (propDataChars_mem p))⟩
      obtain ⟨l⟩ := p.type
      show (isEmptyLine ⟨'/' :: ('P' :: 'R' :: 'O' :: 'P' :: '/' :: l)⟩
        || isComment ⟨'/' :: ('P' :: 'R' :: 'O' :: 'P' :: '/' :: l)⟩) = false
      exact lineSkipped_head_false '/' _ (by decide) ⟨by decide, by decide, by decide⟩
    · rw [List.mem_map] at hb
      obtain ⟨lc, _, rfl⟩ := hb
      refine ⟨?_, Or.inr (Or.inl ?_),
        Or.inl (determineSection_of_lineChars _ (loadDataChars_mem lc))⟩
      · show (isEmptyLine "/CLOAD" || isComment "/CLOAD") = false
        decide
      · show determineSection "/CLOAD" = ParseState.loads
        decide
  · rw [List.mem_map] at hb
    obtain ⟨bc, _, rfl⟩ := hb
    refine ⟨?_, Or.inr (Or.inr ?_),
      Or.inl (determineSection_of_lineChars _ (bcDataChars_mem bc))⟩
    · show (isEmptyLine "/BCS" || isComment "/BCS") = false
      decide
    · show determineSection "/BCS" = ParseState.boundaryConditions
      decide

/-! ### `loadFile` only decorates the parsed collections -/

theorem loadFile_parse_nem (fs : String → Option (List String)) (fn : String)
    (lines : List String) (st : RState) (h : fs fn = some lines) :
    nemOf (loadFile fs fn st).2
      = nemOf (parseFile lines { emptyRState with filename := fn }).2 := by
  simp only [loadFile, h]
  cases hb : (parseFile lines { emptyRState with filename := fn }).1 with
  | false => rfl
  | true =>
    split
    next =>
      split
      next => rfl
      next => rfl
    next hfalse => exact absurd rfl hfalse

end OpenRadiossGUI

/-! ## The indexed Model store (`src/core/Model.h` and its `Model.cpp`)

Each collection is a vector plus an `unordered_map<int, size_t>` from
identifier to position, modelled as a list plus the map's graph.  `Add*`
appends and points the index at the new back; `Remove*` erases the position,
drops the key and shifts every greater position down by one; `Get*` indexes
the vector through the map (the C++ indexing has no bounds check — the
consistency theorem shows the position is always in range, so `get?` is
exact on every reachable state). -/

namespace ModelStore

open OpenRadiossGUI

/-- `ElementType` of `core/Element.h`. -/
inductive CoreElementType where
  | UNKNOWN
  | SHELL3
  | SHELL4
  | TETRA4
  | HEXA8
  | BEAM2
  | SPRING1
  deriving DecidableEq, Repr

/-- `Element` of `core/Element.h` (thickness kept as a rational). -/
structure CoreElement where
  id : Int
  type : CoreElementType
  nodeIds : List Int
  materialId : Int
  propertyId : Int
  thickness : ℚ
  deriving DecidableEq, Repr

/-- `Material` of `core/Material.h`; its scalar law parameters (floats never
    read by the store) are elided, the identifier and name are kept. -/
structure CMaterial where
  id : Int
  name : String
  deriving DecidableEq, Repr

/-- One vector with its identifier-to-position map. -/
structure Table (α : Type) where
  rows : List α
  index : Int → Option Nat

/-- `m_XIdToIndex[x.id] = m_Xs.size(); m_Xs.push_back(x);` -/
def Table.add {α : Type} (idOf : α → Int) (a : α) (t : Table α) : Table α :=
  { rows := t.rows ++ [a]
    index := fun i => if i = idOf a then some t.rows.length else t.index i }

/-- `RemoveX`: a missing key is a no-op; otherwise erase the row at the
    key's position, drop the key, and decrement every index greater than
    the erased position. -/
def Table.remove {α : Type} (i : Int) (t : Table α) : Table α :=
  match t.index i with
  | none => t
  | some pos =>
    { rows := t.rows.eraseIdx pos
      index := fun j =>
        if j = i then none
        else
          match t.index j with
          | some p => some (if pos < p then p - 1 else p)
          | none => none }

/-- `GetX`: `&m_Xs[it->second]` behind a map hit, `nullptr` otherwise. -/
def Table.find {α : Type} (t : Table α) (i : Int) : Option α :=
  (t.index i).bind fun p => t.rows.get? p

def Table.emptyT {α : Type} : Table α := ⟨[], fun _ => none⟩

/-- The store's fields (bounds are recomputed on demand and carry no claim
    here, so only the three indexed collections are kept). -/
structure MState where
  mNodes : Table Node
  mElements : Table CoreElement
  mMaterials : Table CMaterial

/-- A fresh `Model` (also the result of `Model::Clear`). -/
def emptyMState : MState := ⟨Table.emptyT, Table.emptyT, Table.emptyT⟩

/-- The mutations of the store named by the claims. -/
inductive MOp where
  | addNode (n : Node)
  | removeNode (i : Int)
  | addElement (e : CoreElement)
  | removeElement (i : Int)
  | addMaterial (m : CMaterial)
  | clear

/-- Dispatch of one mutation to the store's methods. -/
def applyOp (s : MState) : MOp → MState
  | .addNode n => { s with mNodes := s.mNodes.add Node.id n }
  | .removeNode i => { s with mNodes := s.mNodes.remove i }
  | .addElement e => { s with mElements := s.mElements.add CoreElement.id e }
  | .removeElement i => { s with mElements := s.mElements.remove i }
  | .addMaterial m => { s with mMaterials := s.mMaterials.add CMaterial.id m }
  | .clear => emptyMState

/-- A finite mutation history applied to the empty store. -/
def runOps (ops : List MOp) : MState :=
  ops.foldl applyOp emptyMState

def GetNode (s : MState) (i : Int) : Option Node := s.mNodes.find i

def GetElement (s : MState) (i : Int) : Option CoreElement := s.mElements.find i

def GetMaterial (s : MState) (i : Int) : Option CMaterial := s.mMaterials.find i

/-- A table is well formed when every index entry points inside the vector
    at a row carrying exactly that identifier. -/
def Table.WF {α : Type} (idOf : α → Int) (t : Table α) : Prop :=
  ∀ i p, t.index i = some p → ∃ a, t.rows.get? p = some a ∧ idOf a = i

/-- What claim C9 asks of one lookup: a hit is a live row with the asked-for
    identifier, a miss means the map holds no entry for the identifier. -/
def lookupOk {α : Type} (idOf : α → Int) (t : Table α) (i : Int) : Prop :=
  match t.find i with
  | some a => a ∈ t.rows ∧ idOf a = i
  | none => t.index i = none

/-- All three collections answer every lookup consistently. -/
def lookupConsistent (s : MState) : Prop :=
  ∀ i : Int,
    lookupOk Node.id s.mNodes i ∧
    lookupOk CoreElement.id s.mElements i ∧
    lookupOk CMaterial.id s.mMaterials i

/-- All three tables of a store are well formed. -/
def WFState (s : MState) : Prop :=
  s.mNodes.WF Node.id ∧ s.mElements.WF CoreElement.id ∧ s.mMaterials.WF CMaterial.id

theorem get?_eraseIdx {α : Type} (l : List α) (i j : Nat) :
    (l.eraseIdx i).get? j = if j < i then l.get? j else l.get? (j + 1) := by
  induction l generalizing i j with
  | nil => simp [List.eraseIdx]
  | cons a t ih =>
    cases i with
    | zero => simp [List.eraseIdx]
    | succ i2 =>
      cases j with
      | zero => simp [List.eraseIdx]
      | succ j2 =>
        have hred : ((a :: t).eraseIdx (i2 + 1)).get? (j2 + 1) = (t.eraseIdx i2).get? j2 := rfl
        rw [hred, ih]
        by_cases hlt : j2 < i2
        · rw [if_pos hlt, if_pos (by omega)]
          rfl
        · rw [if_neg hlt, if_neg (by omega)]
          rfl

theorem wf_emptyT {α : Type} (idOf : α → Int) : Table.WF idOf (Table.emptyT) := by
  intro i p h
  simp [Table.emptyT] at h

theorem wf_add {α : Type} (idOf : α → Int) (a : α) (t : Table α) (h : t.WF idOf) :
    (t.add idOf a).WF idOf := by
  intro i p hp
  simp only [Table.add] at hp ⊢
  by_cases hi : i = idOf a
  · rw [if_pos hi] at hp
    cases hp
    exact ⟨a, List.get?_concat_length t.rows a, hi.symm⟩
  · rw [if_neg hi] at hp
    obtain ⟨b, hb, hid⟩ := h i p hp
    have hlt : p < t.rows.length := by
      by_contra hge
      rw [List.get?_eq_none.mpr (by omega)] at hb
      cases hb
    refine ⟨b, ?_, hid⟩
    rw [List.get?_append hlt]
    exact hb

theorem wf_remove {α : Type} (idOf : α → Int) (i : Int) (t : Table α) (h : t.WF idOf) :
    (t.remove i).WF idOf := by
  unfold Table.remove
  cases hidx : t.index i with
  | none => exact h
  | some pos =>
    intro j p hp
    simp only at hp ⊢
    by_cases hj : j = i
    · rw [if_pos hj] at hp
      cases hp
    · rw [if_neg hj] at hp
      cases hq : t.index j with
      | none => rw [hq] at hp; cases hp
      | some q =>
        rw [hq] at hp
        cases hp
        obtain ⟨b, hb, hid⟩ := h j q hq
        obtain ⟨a0, ha0, haid⟩ := h i pos hidx
        have hqpos : q ≠ pos := by
          intro hqe
          rw [hqe, ha0] at hb
          cases hb
          exact hj (by rw [← hid, haid])
        refine ⟨b, ?_, hid⟩
        rw [get?_eraseIdx]
        by_cases hlt : pos < q
        · rw [if_pos hlt, if_neg (by omega : ¬ (q - 1 < pos)),
            (by omega : q - 1 + 1 = q)]
          exact hb
        · rw [if_neg hlt, if_pos (by omega : q < pos)]
          exact hb

theorem wfState_empty : WFState emptyMState :=
  ⟨wf_emptyT Node.id, wf_emptyT CoreElement.id, wf_emptyT CMaterial.id⟩

theorem wfState_applyOp (s : MState) (op : MOp) (h : WFState s) : WFState (applyOp s op) := by
  obtain ⟨hn, he, hm⟩ := h
  cases op with
  | addNode n => exact ⟨wf_add Node.id n s.mNodes hn, he, hm⟩
  | removeNode i => exact ⟨wf_remove Node.id i s.mNodes hn, he, hm⟩
  | addElement e => exact ⟨hn, wf_add CoreElement.id e s.mElements he, hm⟩
  | removeElement i => exact ⟨hn, wf_remove CoreElement.id i s.mElements he, hm⟩
  | addMaterial m => exact ⟨hn, he, wf_add CMaterial.id m s.mMaterials hm⟩
  | clear => exact wfState_empty

theorem wfState_runOps (ops : List MOp) : WFState (runOps ops) := by
  suffices hgen : ∀ s : MState, WFState s → WFState (ops.foldl applyOp s) from
    hgen emptyMState wfState_empty
  induction ops with
  | nil => intro s hs; exact hs
  | cons op rest ih =>
    intro s hs
    exact ih (applyOp s op) (wfState_applyOp s op hs)

theorem lookupOk_of_wf {α : Type} (idOf : α → Int) (t : Table α) (h : t.WF idOf) (i : Int) :
    lookupOk idOf t i := by
  unfold lookupOk Table.find
  cases hidx : t.index i with
  | none => exact rfl
  | some p =>
    obtain ⟨a, ha, hid⟩ := h i p hidx
    have hg : ((some p).bind fun q => t.rows.get? q) = some a := ha
    rw [hg]
    exact ⟨List.get?_mem ha, hid⟩

end ModelStore

/-! ## The settled claims -/

open OpenRadiossGUI

/-- A data line's handling in the loop: a line that is neither skipped nor a
    recognized marker is parsed under the current section, a success
    continuing the loop and a failure ending the whole read. -/
theorem parseFileLoop_data_step (cur : ParseState) (n : Nat) (l : String)
    (rest : List String) (st : RState)
    (hskip : (isEmptyLine l || isComment l) = false)
    (hsec : determineSection l = ParseState.unknown) :
    parseFileLoop cur n (l :: rest) st =
      match parseContent cur l st with
      | some st2 => parseFileLoop cur (n + 1) rest st2
      | none =>
        (false, setError ("Parse error at line " ++ toString (n + 1) ++ ": " ++ l) st) := by
  conv_lhs => rw [parseFileLoop]
  simp only [hskip, Bool.false_eq_true, if_false, hsec, ne_eq, not_true_eq_false]

/-- C1 (amended): a malformed data line is not skipped — it sets the
    last-error string, naming its line number, and ends the read at once:
    `parseFile` returns `false` no matter what lines follow. -/
theorem malformed_data_line_aborts (cur : ParseState) (n : Nat) (l : String)
    (rest : List String) (st : RState)
    (hskip : (isEmptyLine l || isComment l) = false)
    (hsec : determineSection l = ParseState.unknown)
    (hfail : parseContent cur l st = none) :
    parseFileLoop cur n (l :: rest) st =
      (false, setError ("Parse error at line " ++ toString (n + 1) ++ ": " ++ l) st) := by
  rw [parseFileLoop_data_step cur n l rest st hskip hsec, hfail]

/-- Witness for C1: in the node section the two-token line `1 2` aborts the
    read with its line recorded in the error string. -/
theorem malformed_data_line_aborts_witness :
    parseFileLoop ParseState.nodes 0 ["1 2"] emptyRState =
      (false, setError ("Parse error at line " ++ toString (0 + 1) ++ ": " ++ "1 2") emptyRState) :=
  malformed_data_line_aborts ParseState.nodes 0 "1 2" [] emptyRState rfl rfl rfl

/-- Counterexample to C1 as stated: a malformed node-section data line makes
    the whole read fail. -/
theorem malformed_node_line_fails_read :
    (parseFile ["/NODE", "1 2"] emptyRState).1 = false := rfl

/-- C2 (amended): a marker line matching no keyword does not switch the
    parser's state — the `Unknown` sink is never entered; the line is
    instead handled as a data line of the section it appears in, and the
    loop continues in that same section when the grammar accepts it. -/
theorem unknown_marker_keeps_section (cur : ParseState) (n : Nat) (l : String)
    (rest : List String) (st st2 : RState)
    (hskip : (isEmptyLine l || isComment l) = false)
    (hsec : determineSection l = ParseState.unknown)
    (hok : parseContent cur l st = some st2) :
    parseFileLoop cur n (l :: rest) st = parseFileLoop cur (n + 1) rest st2 := by
  rw [parseFileLoop_data_step cur n l rest st hskip hsec, hok]

/-- Witness for C2: the unmatched marker `/XYZ` in the header section is
    consumed by the header grammar and the loop stays in the header state. -/
theorem unknown_marker_keeps_section_witness :
    parseFileLoop ParseState.header 0 ["/XYZ"] emptyRState =
      parseFileLoop ParseState.header 1 [] emptyRState :=
  unknown_marker_keeps_section ParseState.header 0 "/XYZ" [] emptyRState emptyRState rfl rfl rfl

/-- Counterexample to C2 as stated: the unrecognized marker `/FUNCT` inside
    the node section is not silently ignored — it fails the node grammar and
    the whole read errors. -/
theorem unknown_marker_fails_read :
    determineSection "/FUNCT" = ParseState.unknown ∧
    (parseFile ["/NODE", "/FUNCT"] emptyRState).1 = false :=
  ⟨rfl, rfl⟩

/-- C9: after any finite sequence of AddNode, RemoveNode, AddElement,
    RemoveElement, AddMaterial and Clear operations on an initially empty
    model, every `GetNode`/`GetElement`/`GetMaterial` lookup returns either
    a row of the backing collection carrying exactly the asked-for
    identifier, or `none` when the index holds no entry for it — no lookup
    resolves through a stale index position. -/
theorem model_index_consistent (ops : List ModelStore.MOp) :
    ModelStore.lookupConsistent (ModelStore.runOps ops) := by
  obtain ⟨hn, he, hm⟩ := ModelStore.wfState_runOps ops
  intro i
  exact ⟨ModelStore.lookupOk_of_wf _ _ hn i, ModelStore.lookupOk_of_wf _ _ he i,
    ModelStore.lookupOk_of_wf _ _ hm i⟩

/-- C10: `loadFile` clears all previously loaded state before opening, so a
    path that does not open leaves every collection empty, the title blank,
    every lookup table empty, the model invalid and a non-empty error
    string, whatever was loaded before. -/
theorem loadFile_failed_open (fs : String → Option (List String)) (fn : String) (st : RState)
    (h : fs fn = none) :
    (loadFile fs fn st).1 = false ∧
    (loadFile fs fn st).2.nodes = [] ∧
    (loadFile fs fn st).2.elements = [] ∧
    (loadFile fs fn st).2.materials = [] ∧
    (loadFile fs fn st).2.properties = [] ∧
    (loadFile fs fn st).2.loadCases = [] ∧
    (loadFile fs fn st).2.boundaryConditions = [] ∧
    (loadFile fs fn st).2.title = "" ∧
    (loadFile fs fn st).2.isValid = false ∧
    (∀ i, (loadFile fs fn st).2.nodeIdToIndex i = none) ∧
    (loadFile fs fn st).2.lastError ≠ "" := by
  have hres : loadFile fs fn st =
      (false, setError ("Cannot open file: " ++ fn) { emptyRState with filename := fn }) := by
    unfold loadFile
    rw [h]
  rw [hres]
  refine ⟨rfl, rfl, rfl, rfl, rfl, rfl, rfl, rfl, rfl, fun i => rfl, ?_⟩
  show ("Cannot open file: " ++ fn) ≠ ""
  obtain ⟨fnd⟩ := fn
  intro heq
  have hdata : "Cannot open file: ".data ++ fnd = [] := congrArg String.data heq
  have hlen := congrArg List.length hdata
  rw [List.length_append] at hlen
  have h18 : ("Cannot open file: ".data).length = 18 := rfl
  have h0 : ([] : List Char).length = 0 := rfl
  omega

theorem validateNodesAux_iff (seen : List Int) (ns : List Node) :
    validateNodesAux seen ns = true ↔
      (ns.map Node.id).Nodup ∧ ∀ n ∈ ns, n.id ∉ seen := by
  induction ns generalizing seen with
  | nil => simp [validateNodesAux]
  | cons n rest ih =>
    unfold validateNodesAux
    by_cases hmem : n.id ∈ seen
    · rw [if_pos hmem]
      simp only [Bool.false_eq_true, false_iff, not_and]
      intro _ hall
      exact hall n (List.mem_cons_self n rest) hmem
    · rw [if_neg hmem, ih]
      constructor
      · rintro ⟨hnd, hall⟩
        refine ⟨?_, ?_⟩
        · rw [List.map_cons, List.nodup_cons]
          refine ⟨?_, hnd⟩
          rw [List.mem_map]
          rintro ⟨m, hm, hmid⟩
          exact (hall m hm) (by rw [hmid]; exact List.mem_cons_self n.id seen)
        · intro m hm
          rcases List.mem_cons.mp hm with rfl | hm2
          · exact hmem
          · intro hin
            exact (hall m hm2) (List.mem_cons_of_mem n.id hin)
      · rintro ⟨hnd, hall⟩
        rw [List.map_cons, List.nodup_cons, List.mem_map] at hnd
        refine ⟨hnd.2, ?_⟩
        intro m hm hin
        rcases List.mem_cons.mp hin with heq | hin2
        · exact hnd.1 ⟨m, hm, heq⟩
        · exact (hall m (List.mem_cons_of_mem n hm)) hin2

theorem validateElementsAux_iff (seen : List Int) (es : List Element) :
    validateElementsAux seen es = true ↔
      (es.map Element.id).Nodup ∧ (∀ e ∈ es, e.id ∉ seen) ∧
      ∀ e ∈ es, 0 < getElementNodeCount e.type →
        (e.nodeIds.length : Int) = getElementNodeCount e.type := by
  induction es generalizing seen with
  | nil => simp [validateElementsAux]
  | cons e rest ih =>
    unfold validateElementsAux
    by_cases hmem : e.id ∈ seen
    · rw [if_pos hmem]
      simp only [Bool.false_eq_true, false_iff, not_and]
      intro _ hall
      exact absurd (hall e (List.mem_cons_self e rest)) (by simp [hmem])
    · rw [if_neg hmem]
      by_cases hcnt : 0 < getElementNodeCount e.type ∧
          (e.nodeIds.length : Int) ≠ getElementNodeCount e.type
      · rw [if_pos hcnt]
        simp only [Bool.false_eq_true, false_iff, not_and]
        intro _ _ hall
        exact hcnt.2 (hall e (List.mem_cons_self e rest) hcnt.1)
      · rw [if_neg hcnt, ih]
        push_neg at hcnt
        constructor
        · rintro ⟨hnd, hall, hcount⟩
          refine ⟨?_, ?_, ?_⟩
          · rw [List.map_cons, List.nodup_cons]
            refine ⟨?_, hnd⟩
            rw [List.mem_map]
            rintro ⟨m, hm, hmid⟩
            exact (hall m hm) (by rw [hmid]; exact List.mem_cons_self e.id seen)
          · intro m hm
            rcases List.mem_cons.mp hm with rfl | hm2
            · exact hmem
            · intro hin
              exact (hall m hm2) (List.mem_cons_of_mem e.id hin)
          · intro m hm
            rcases List.mem_cons.mp hm with rfl | hm2
            · exact hcnt
            · exact hcount m hm2
        · rintro ⟨hnd, hall, hcount⟩
          rw [List.map_cons, List.nodup_cons, List.mem_map] at hnd
          refine ⟨hnd.2, ?_, ?_⟩
          · intro m hm hin
            rcases List.mem_cons.mp hin with heq | hin2
            · exact hnd.1 ⟨m, hm, heq⟩
            · exact (hall m (List.mem_cons_of_mem e hm)) hin2
          · intro m hm
            exact hcount m (List.mem_cons_of_mem e hm)

theorem validateReferences_iff (st : RState) :
    validateReferences st = true ↔
      ∀ e ∈ st.elements, ∀ nid ∈ e.nodeIds, findNode st nid ≠ none := by
  unfold validateReferences
  rw [List.all_eq_true]
  constructor
  · intro hall e he nid hn
    have := hall e he
    rw [List.all_eq_true] at this
    have h2 := this nid hn
    rw [Option.isSome_iff_ne_none] at h2
    exact h2
  · intro hall e he
    rw [List.all_eq_true]
    intro nid hn
    rw [Option.isSome_iff_ne_none]
    exact hall e he nid hn

/-- C4: `validateData` succeeds exactly when node identifiers are pairwise
    distinct, element identifiers are pairwise distinct, every element of a
    topology with positive canonical node count carries exactly that many
    node identifiers, and every node identifier any element references
    resolves through the node index. -/
theorem validateData_iff (st : RState) :
    validateData st = true ↔
      (st.nodes.map Node.id).Nodup ∧
      (st.elements.map Element.id).Nodup ∧
      (∀ e ∈ st.elements, 0 < getElementNodeCount e.type →
        (e.nodeIds.length : Int) = getElementNodeCount e.type) ∧
      ∀ e ∈ st.elements, ∀ nid ∈ e.nodeIds, findNode st nid ≠ none := by
  unfold validateData validateNodes validateElements
  rw [Bool.and_eq_true, Bool.and_eq_true, validateNodesAux_iff, validateElementsAux_iff,
    validateReferences_iff]
  simp only [List.not_mem_nil, not_false_iff, implies_true, and_true, true_and]
  tauto

/-- Witness for C10: a file system with no openable file at all. -/
theorem loadFile_failed_open_witness :
    (loadFile (fun _ => none) "missing.rad" emptyRState).1 = false ∧
    (loadFile (fun _ => none) "missing.rad" emptyRState).2.nodes = [] ∧
    (loadFile (fun _ => none) "missing.rad" emptyRState).2.elements = [] ∧
    (loadFile (fun _ => none) "missing.rad" emptyRState).2.materials = [] ∧
    (loadFile (fun _ => none) "missing.rad" emptyRState).2.properties = [] ∧
    (loadFile (fun _ => none) "missing.rad" emptyRState).2.loadCases = [] ∧
    (loadFile (fun _ => none) "missing.rad" emptyRState).2.boundaryConditions = [] ∧
    (loadFile (fun _ => none) "missing.rad" emptyRState).2.title = "" ∧
    (loadFile (fun _ => none) "missing.rad" emptyRState).2.isValid = false ∧
    (∀ i, (loadFile (fun _ => none) "missing.rad" emptyRState).2.nodeIdToIndex i = none) ∧
    (loadFile (fun _ => none) "missing.rad" emptyRState).2.lastError ≠ "" :=
  loadFile_failed_open (fun _ => none) "missing.rad" emptyRState rfl

theorem bcTokenLoop_spec (ts : List String) (dofs nids d n : List Int)
    (h : bcTokenLoop ts dofs nids = some (d, n)) :
    d = dofs ++ ((ts.filter bcTokenHasDof).map bcDofDigits).join ∧
    ∃ vs, stoiAll (ts.filter (fun t => !bcTokenHasDof t)) = some vs ∧ n = nids ++ vs := by
  induction ts generalizing dofs nids with
  | nil =>
    simp only [bcTokenLoop, Option.some.injEq, Prod.mk.injEq] at h
    obtain ⟨rfl, rfl⟩ := h
    exact ⟨by simp, [], by simp [stoiAll], by simp⟩
  | cons t rest ih =>
    unfold bcTokenLoop at h
    by_cases hdof : bcTokenHasDof t
    · rw [if_pos hdof] at h
      obtain ⟨hd, vs, hvs, hn⟩ := ih _ _ h
      refine ⟨?_, vs, ?_, hn⟩
      · rw [hd]
        simp [List.filter_cons, hdof, List.append_assoc]
      · simpa [List.filter_cons, hdof] using hvs
    · rw [if_neg hdof] at h
      cases hs : stoiOpt t with
      | none => rw [hs] at h; cases h
      | some v =>
        rw [hs] at h
        obtain ⟨hd, vs, hvs, hn⟩ := ih _ _ h
        refine ⟨by simpa [List.filter_cons, hdof] using hd, v :: vs, ?_, ?_⟩
        · simp [List.filter_cons, hdof, stoiAll, hs, hvs]
        · rw [hn]
          simp

/-- C5 (amended): in a BoundaryCondition data line, a token past the first
    two is read as a packed DOF spec exactly when it holds at least one of
    the characters `1`..`6` (each such digit becoming one constrained DOF,
    other characters dropped); only tokens with none of those characters are
    read with `stoi` and appended to the affected-node list. -/
theorem parseBoundaryCondition_token_rule (line : String) (bc : BoundaryCondition)
    (h : parseBoundaryConditionLine line = some bc) :
    bc.dofs = ((((tokenizeLine line).drop 2).filter bcTokenHasDof).map bcDofDigits).join ∧
    ∃ vs, stoiAll (((tokenizeLine line).drop 2).filter (fun t => !bcTokenHasDof t))
        = some vs ∧
      bc.nodeIds = vs := by
  unfold parseBoundaryConditionLine at h
  rcases hts : tokenizeLine line with _ | ⟨t0, _ | ⟨t1, _ | ⟨t2, rest⟩⟩⟩ <;> rw [hts] at h
  · cases h
  · cases h
  · cases h
  · simp only [parseBCTokens] at h
    cases hs0 : stoiOpt t0 with
    | none => rw [hs0] at h; cases h
    | some i =>
      rw [hs0] at h
      simp only [Option.some_bind] at h
      cases hloop : bcTokenLoop (t2 :: rest) [] [] with
      | none => rw [hloop] at h; cases h
      | some p =>
        rw [hloop] at h
        obtain ⟨d, n⟩ := p
        have h2 : some (⟨i, t1, d, n⟩ : BoundaryCondition) = some bc := h
        cases h2
        obtain ⟨hd, vs, hvs, hn⟩ := bcTokenLoop_spec (t2 :: rest) [] [] d n hloop
        refine ⟨by simpa using hd, vs, by simpa using hvs, by simpa using hn⟩

/-- Witness for C5: in `1 BCS 123 7` the token `123` packs DOFs 1, 2, 3 and
    the token `7`, holding no character `1`..`6`, is the node id 7. -/
theorem parseBoundaryCondition_token_rule_witness :
    ((parseBoundaryConditionLine "1 BCS 123 7").getD ⟨0, "", [], []⟩).dofs =
      ((((tokenizeLine "1 BCS 123 7").drop 2).filter bcTokenHasDof).map bcDofDigits).join ∧
    ∃ vs,
      stoiAll (((tokenizeLine "1 BCS 123 7").drop 2).filter
          (fun t => !bcTokenHasDof t)) = some vs ∧
      ((parseBoundaryConditionLine "1 BCS 123 7").getD ⟨0, "", [], []⟩).nodeIds = vs :=
  parseBoundaryCondition_token_rule "1 BCS 123 7"
    ((parseBoundaryConditionLine "1 BCS 123 7").getD ⟨0, "", [], []⟩) rfl

/-- Counterexample to C5 as stated: the numeric token `10` does not consist
    solely of digits `1`..`6`, yet it is consumed as a DOF spec (yielding
    DOF 1) and is not appended to the node-identifier list. -/
theorem bc_numeric_token_taken_as_dof :
    ¬ ("10".toList ≠ [] ∧ ∀ c ∈ "10".toList, '1' ≤ c ∧ c ≤ '6') ∧
    (parseBoundaryConditionLine "1 BCS 10").map BoundaryCondition.dofs = some [1] ∧
    (parseBoundaryConditionLine "1 BCS 10").map BoundaryCondition.nodeIds = some [] := by
  refine ⟨?_, rfl, rfl⟩
  rintro ⟨-, hall⟩
  have h0 := hall '0' (by decide)
  exact absurd h0 (by decide)

theorem lineSkipped_eq_isComment (line : String) : lineSkipped line = isComment line := by
  unfold lineSkipped isEmptyLine isComment
  by_cases he : trim line = ""
  · rw [he]
    simp
  · rw [decide_eq_false he, Bool.false_or]

/-- C6 (amended): the loop skips a line exactly when it is blank after
    trimming or its first non-whitespace character is `#`, `C` or `c` —
    `$` is not a comment marker of this reader. -/
theorem lineSkipped_iff (line : String) :
    lineSkipped line = true ↔
      (trim line).toList = [] ∨
      ∃ c cs, (trim line).toList = c :: cs ∧ (c = '#' ∨ c = 'C' ∨ c = 'c') := by
  rw [lineSkipped_eq_isComment]
  unfold isComment
  cases h : (trim line).toList with
  | nil => simp [h]
  | cons c cs =>
    simp only [h]
    constructor
    · intro hb
      refine Or.inr ⟨c, cs, rfl, ?_⟩
      simp only [Bool.or_eq_true, decide_eq_true_eq] at hb
      tauto
    · rintro (hnil | ⟨c2, cs2, heq, hc2⟩)
      · cases hnil
      · obtain ⟨rfl, rfl⟩ : c2 = c ∧ cs2 = cs := by
          injection heq with h1 h2
          exact ⟨h1.symm, h2.symm⟩
        simp only [Bool.or_eq_true, decide_eq_true_eq]
        tauto

/-- Counterexample to C6 as stated: a line whose first non-whitespace
    character is `$` is not classified as a comment and is not skipped. -/
theorem dollar_line_not_skipped :
    (trim "$ comment").toList.head? = some '$' ∧ lineSkipped "$ comment" = false :=
  ⟨rfl, rfl⟩

/-- The topology the spec's table assigns to a trailing-token count. -/
def shellTopologyOfCount (c : Nat) : EType :=
  match c with
  | 3 => .TRIA3
  | 4 => .QUAD4
  | 5 => .PYRAM5
  | 6 => .PENTA6
  | 8 => .HEXA8
  | _ => .UNKNOWN

/-- C7: a successfully parsed element line of n ≥ 5 tokens stores an element
    whose topology tag depends only on the trailing-token count n − 3
    (3 the 3-node shell, 4 the 4-node shell, 5 the pyramid, 6 the
    pentahedron, 8 the hexahedron, anything else unknown) and whose node-id
    sequence is tokens 4..n in order. -/
theorem parseElement_topology (line : String) (e : Element)
    (h : parseElementLine line = some e)
    (h5 : 5 ≤ (tokenizeLine line).length) :
    e.type = shellTopologyOfCount ((tokenizeLine line).length - 3) ∧
    ∃ ids, stoiAll ((tokenizeLine line).drop 3) = some ids ∧ e.nodeIds = ids := by
  unfold parseElementLine at h
  rcases hts : tokenizeLine line with _ | ⟨t0, _ | ⟨t1, _ | ⟨t2, rest⟩⟩⟩ <;>
    rw [hts] at h h5
  · simp at h5
  · simp at h5
  · simp at h5
  · have hlen : rest.length ≥ 2 := by
      simp only [List.length_cons] at h5
      omega
    simp only [parseElementTokens] at h
    cases hs0 : stoiOpt t0 with
    | none => rw [hs0] at h; cases h
    | some i =>
      rw [hs0] at h
      simp only [Option.some_bind, if_pos hlen] at h
      cases hs1 : stoiOpt t1 with
      | none => rw [hs1] at h; cases h
      | some matId =>
        rw [hs1] at h
        simp only [Option.some_bind] at h
        cases hs2 : stoiOpt t2 with
        | none => rw [hs2] at h; cases h
        | some propId =>
          rw [hs2] at h
          simp only [Option.some_bind] at h
          cases hm : stoiAll rest with
          | none => rw [hm] at h; cases h
          | some nids =>
            rw [hm] at h
            simp only [Option.some_bind, Option.some.injEq] at h
            subst h
            constructor
            · show (match rest.length with
                | 3 => EType.TRIA3
                | 4 => EType.QUAD4
                | 5 => EType.PYRAM5
                | 6 => EType.PENTA6
                | 8 => EType.HEXA8
                | _ => EType.UNKNOWN) =
                shellTopologyOfCount ((t0 :: t1 :: t2 :: rest).length - 3)
              have hc : (t0 :: t1 :: t2 :: rest).length - 3 = rest.length := by
                simp only [List.length_cons]
                omega
              rw [hc]
              rfl
            · exact ⟨nids, by simpa using hm, rfl⟩

/-- Witness for C7: the six-token line `1 1 1 1 2 3` stores a 3-node shell
    with node ids 1, 2, 3. -/
theorem parseElement_topology_witness :
    ((parseElementLine "1 1 1 1 2 3").getD defaultElement).type =
      shellTopologyOfCount ((tokenizeLine "1 1 1 1 2 3").length - 3) ∧
    ∃ ids, stoiAll ((tokenizeLine "1 1 1 1 2 3").drop 3) = some ids ∧
      ((parseElementLine "1 1 1 1 2 3").getD defaultElement).nodeIds = ids :=
  parseElement_topology "1 1 1 1 2 3"
    ((parseElementLine "1 1 1 1 2 3").getD defaultElement) rfl (by decide)

theorem getBoundingBoxS_nil (s : OpenRadiossGUI.SimpleRad.SState) (h : s.nodes = []) :
    OpenRadiossGUI.SimpleRad.getBoundingBoxS s = (vzero, vzero) := by
  unfold OpenRadiossGUI.SimpleRad.getBoundingBoxS
  rw [h]

/-- C3 (amended): in the simple reader (`src/radfilereader.cpp`) an input
    with zero node records makes `loadFile` return `false` and leaves the
    bounding box at the origin pair; the structured reader
    (`src/io/RadFileReader.cpp`) instead returns `true` on a zero-node file
    that parses, its validation passing vacuously, though its bounding box
    is likewise the origin pair. -/
theorem simple_load_zero_nodes (lines : List String)
    (h : (SimpleRad.loadLines lines).2.nodes = []) :
    (SimpleRad.loadLines lines).1 = false ∧
    SimpleRad.getBoundingBoxS (SimpleRad.loadLines lines).2 = (vzero, vzero) := by
  constructor
  · have hn : (SimpleRad.parseLoop false false false lines SimpleRad.emptySState).nodes = [] := h
    show decide
        ((SimpleRad.parseLoop false false false lines SimpleRad.emptySState).nodes ≠ []) = false
    rw [hn]
    simp
  · exact getBoundingBoxS_nil _ h

/-- Witness for C3: a file holding one comment line loads no node, returns
    `false` and reports the origin bounding box. -/
theorem simple_load_zero_nodes_witness :
    (SimpleRad.loadLines ["#RADIOSS STARTER"]).1 = false ∧
    SimpleRad.getBoundingBoxS (SimpleRad.loadLines ["#RADIOSS STARTER"]).2 = (vzero, vzero) :=
  simple_load_zero_nodes ["#RADIOSS STARTER"] rfl

/-- Counterexample to C3 as stated: the structured reader's `loadFile` on an
    empty (zero-node) file returns `true`, not `false` — its validation
    passes vacuously — while the bounding box is the origin pair. -/
theorem io_load_empty_file_returns_true :
    (loadFile (fun _ => some []) "empty.rad" emptyRState).1 = true ∧
    getBoundingBox (loadFile (fun _ => some []) "empty.rad" emptyRState).2 = (vzero, vzero) :=
  ⟨rfl, rfl⟩

/-- A model of well-formed entities (its own validator accepts it): one
    origin node and one material whose attribute bag is empty — the bag is
    never required to be non-empty anywhere in the model layer. -/
def cexEmptyBagModel : RState :=
  { emptyRState with
    nodes := [⟨1, ⟨0, 0, 0⟩⟩]
    materials := [⟨7, "LAW1", []⟩]
    isValid := true }

/-- A model of well-formed entities: three origin nodes and one pentahedron
    whose six node references all resolve. -/
def cexPentaModel : RState :=
  { emptyRState with
    nodes := [⟨1, ⟨0, 0, 0⟩⟩, ⟨2, ⟨0, 0, 0⟩⟩, ⟨3, ⟨0, 0, 0⟩⟩]
    elements := [⟨1, .PENTA6, [1, 2, 3, 1, 2, 3], 1, 1⟩]
    isValid := true }

/-- Counterexample to C8 as stated: two models the program's own validator
    accepts (unique identifiers, every element node reference resolving)
    whose write/read round trip loses the material count (the empty-bag
    material writes a one-token record that `parseMaterial` rejects,
    aborting the re-read) respectively the element count (the `/PENTA6`
    group marker the writer emits matches no keyword of `determineSection`,
    so the marker is fed to the node grammar and aborts the re-read). -/
theorem roundTrip_write_read_fails :
    validateData (buildLookupTables cexEmptyBagModel) = true ∧
    saveFile cexEmptyBagModel = some (saveLines cexEmptyBagModel) ∧
    cexEmptyBagModel.materials.length = 1 ∧
    (loadFile (fun _ => some (saveLines cexEmptyBagModel)) "a.rad" emptyRState).2.materials.length
      = 0 ∧
    validateData (buildLookupTables cexPentaModel) = true ∧
    saveFile cexPentaModel = some (saveLines cexPentaModel) ∧
    cexPentaModel.elements.length = 1 ∧
    (loadFile (fun _ => some (saveLines cexPentaModel)) "b.rad" emptyRState).2.elements.length
      = 0 :=
  ⟨by decide, rfl, rfl, by decide, by decide, rfl, rfl, by decide⟩

/-- C8 (amended): for a valid model whose entities are writable — every
    node coordinate's 7-significant-digit field fits its 20-column slot,
    every element carries one of the five topology tags whose writer
    header routes back into the reader's element section (`/PENTA6` and
    `/PYRAM5` do not) and its material, property and node-id fields fit
    their 10-column slots, every material has a non-empty attribute bag
    and a law tag whose `/MAT/<law>` marker routes back to the material
    section, and every property's `/PROP/<type>` marker routes back to
    the property section — `saveFile` writes the deck, and re-reading it
    yields the node collection exactly as the emitted-precision rounding
    `roundNode` of the original, with the node, element and material
    counts all preserved.  (The re-read's overall boolean may still be
    false: load-case, property and boundary-condition records are written
    in shapes the reader can reject, but they follow the three tracked
    collections and cannot change them.) -/
theorem saveFile_roundTrip (m : RState) (fn : String)
    (hv : m.isValid = true)
    (hnodes : ∀ nd ∈ m.nodes, (sciChars nd.position.x).length < 20 ∧
      (sciChars nd.position.y).length < 20 ∧ (sciChars nd.position.z).length < 20)
    (htypes : ∀ e ∈ m.elements, e.type = EType.TRIA3 ∨ e.type = EType.QUAD4
      ∨ e.type = EType.TETRA4 ∨ e.type = EType.HEXA8 ∨ e.type = EType.UNKNOWN)
    (hefit : ∀ e ∈ m.elements, (intChars e.materialId).length < 10
      ∧ (intChars e.propertyId).length < 10 ∧ ∀ nid ∈ e.nodeIds, (intChars nid).length < 10)
    (hmats : ∀ mt ∈ m.materials, mt.properties ≠ []
      ∧ (∀ p ∈ mt.properties, (sciChars p.2).length < 20)
      ∧ determineSection ("/MAT/" ++ mt.type) = ParseState.materials)
    (hprops : ∀ p ∈ m.properties,
      determineSection ("/PROP/" ++ p.type) = ParseState.properties) :
    saveFile m = some (saveLines m) ∧
    (loadFile (fun _ => some (saveLines m)) fn emptyRState).2.nodes = m.nodes.map roundNode ∧
    (loadFile (fun _ => some (saveLines m)) fn emptyRState).2.nodes.length = m.nodes.length ∧
    (loadFile (fun _ => some (saveLines m)) fn emptyRState).2.elements.length
      = m.elements.length ∧
    (loadFile (fun _ => some (saveLines m)) fn emptyRState).2.materials.length
      = m.materials.length := by
  have hsv : saveFile m = some (saveLines m) := by
    unfold saveFile
    rw [hv]
    rfl
  obtain ⟨cH, sH, hH, hHnem⟩ := segRun_header m { emptyRState with filename := fn } 0
  obtain ⟨cN, hN⟩ := segRun_nodes m sH (0 + (writeHeaderLines m).length) cH hnodes
  set sN : RState := { sH with nodes := sH.nodes ++ m.nodes.map roundNode } with hsNdef
  have hAB := segRun_append (writeHeaderLines m) ParseState.header 0 (writeNodesLines m)
    { emptyRState with filename := fn } _ _ hH
  rw [hN] at hAB
  obtain ⟨cE, gsE, hlenE, hE⟩ := segRun_elements m sN
    (0 + (writeHeaderLines m ++ writeNodesLines m).length) cN htypes hefit
  set sE : RState := { sN with elements := sN.elements ++ gsE } with hsEdef
  have hABC := segRun_append (writeHeaderLines m ++ writeNodesLines m) ParseState.header 0
    (writeElementsLines m) { emptyRState with filename := fn } _ _ hAB
  rw [hE] at hABC
  obtain ⟨cM, gsM, hlenM, hM⟩ := segRun_matList m.materials sE
    (0 + (writeHeaderLines m ++ writeNodesLines m ++ writeElementsLines m).length) cE hmats
  set sM : RState := { sE with materials := sE.materials ++ gsM } with hsMdef
  rw [← show writeMaterialsLines m = (m.materials.map matLines).join from rfl] at hM
  have hABCD := segRun_append
    (writeHeaderLines m ++ writeNodesLines m ++ writeElementsLines m) ParseState.header 0
    (writeMaterialsLines m) { emptyRState with filename := fn } _ _ hABC
  rw [hM] at hABCD
  have hsl : saveLines m
      = (writeHeaderLines m ++ writeNodesLines m ++ writeElementsLines m
          ++ writeMaterialsLines m)
        ++ (writePropertiesLines m ++ writeLoadCasesLines m
          ++ writeBoundaryConditionsLines m) := by
    unfold saveLines
    simp [List.append_assoc]
  have hfull := parseFileLoop_append
    (writeHeaderLines m ++ writeNodesLines m ++ writeElementsLines m ++ writeMaterialsLines m)
    ParseState.header 0
    (writePropertiesLines m ++ writeLoadCasesLines m ++ writeBoundaryConditionsLines m)
    { emptyRState with filename := fn } _ _ hABCD
  have htail : nemOf (parseFileLoop cM
      (0 + (writeHeaderLines m ++ writeNodesLines m ++ writeElementsLines m
        ++ writeMaterialsLines m).length)
      (writePropertiesLines m ++ writeLoadCasesLines m ++ writeBoundaryConditionsLines m)
      sM).2 = nemOf sM := by
    rw [tail_lines_eq m]
    exact tail_blocks (tailBlocksOf m) cM _ sM (tailBlocks_hyps m hprops)
  have hparse : nemOf (parseFile (saveLines m) { emptyRState with filename := fn }).2
      = nemOf sM := by
    unfold parseFile
    rw [hsl, hfull]
    exact htail
  have hlf := loadFile_parse_nem (fun _ => some (saveLines m)) fn (saveLines m) emptyRState rfl
  rw [hparse] at hlf
  have hsHn : sH.nodes = [] := by
    have h1 : sH.nodes = ({ emptyRState with filename := fn } : RState).nodes :=
      congrArg (fun p => p.1) hHnem
    exact h1.trans rfl
  have hsHe : sH.elements = [] := by
    have h1 : sH.elements = ({ emptyRState with filename := fn } : RState).elements :=
      congrArg (fun p => p.2.1) hHnem
    exact h1.trans rfl
  have hsHm : sH.materials = [] := by
    have h1 : sH.materials = ({ emptyRState with filename := fn } : RState).materials :=
      congrArg (fun p => p.2.2) hHnem
    exact h1.trans rfl
  have hMn : sM.nodes = m.nodes.map roundNode := by
    show sH.nodes ++ m.nodes.map roundNode = m.nodes.map roundNode
    rw [hsHn]
    rfl
  have hMe : sM.elements = gsE := by
    show sH.elements ++ gsE = gsE
    rw [hsHe]
    rfl
  have hMm : sM.materials = gsM := by
    show sH.materials ++ gsM = gsM
    rw [hsHm]
    rfl
  have hn2 : (loadFile (fun _ => some (saveLines m)) fn emptyRState).2.nodes = sM.nodes :=
    congrArg (fun p => p.1) hlf
  have he2 : (loadFile (fun _ => some (saveLines m)) fn emptyRState).2.elements = sM.elements :=
    congrArg (fun p => p.2.1) hlf
  have hm2 : (loadFile (fun _ => some (saveLines m)) fn emptyRState).2.materials
      = sM.materials := congrArg (fun p => p.2.2) hlf
  refine ⟨hsv, hn2.trans hMn, ?_, ?_, ?_⟩
  · rw [hn2.trans hMn]
    exact List.length_map _ _
  · rw [he2.trans hMe]
    exact hlenE
  · rw [hm2.trans hMm]
    exact hlenM

/-- A writable model: three origin nodes, one triangle referencing them,
    one material with one scalar attribute. -/
def rtWitnessModel : RState :=
  { emptyRState with
    nodes := [⟨1, ⟨0, 0, 0⟩⟩, ⟨2, ⟨0, 0, 0⟩⟩, ⟨3, ⟨0, 0, 0⟩⟩]
    elements := [⟨1, .TRIA3, [1, 2, 3], 1, 1⟩]
    materials := [⟨1, "LAW1", [("RHO", 0)]⟩]
    isValid := true }

/-- Witness for C8: the round-trip theorem applied at a concrete writable
    model, every hypothesis discharged by evaluation. -/
theorem saveFile_roundTrip_witness :
    saveFile rtWitnessModel = some (saveLines rtWitnessModel) ∧
    (loadFile (fun _ => some (saveLines rtWitnessModel)) "w.rad" emptyRState).2.nodes
      = rtWitnessModel.nodes.map roundNode ∧
    (loadFile (fun _ => some (saveLines rtWitnessModel)) "w.rad" emptyRState).2.nodes.length
      = rtWitnessModel.nodes.length ∧
    (loadFile (fun _ => some (saveLines rtWitnessModel)) "w.rad" emptyRState).2.elements.length
      = rtWitnessModel.elements.length ∧
    (loadFile (fun _ => some (saveLines rtWitnessModel)) "w.rad" emptyRState).2.materials.length
      = rtWitnessModel.materials.length :=
  saveFile_roundTrip rtWitnessModel "w.rad" rfl (by decide) (by decide) (by decide) (by decide)
    (by decide)
